import Mathlib

/-!
Verification of the HyDRA entity-alignment pipeline against its
natural-language specification.  The Python source is shallowly embedded:
entity ids are integers (modelled as `ℤ`), file-backed record sets become
`Finset`, per-entity candidate lists become `List ℤ`, and each Python
function is translated into a computable Lean definition.  Scores that
Python computes with floating point are modelled with exact rationals
(`ℚ`).
-/

namespace HyDRA

/-! ## Supervision-set merge: `add_to_sup_pairs` in
`multi_scale_fusion/multi_scale_fusion.py`.

The on-disk `sup_pairs` file is a set of `(kg1_id, kg2_id)` lines; it is
modelled as a `Finset (ℤ × ℤ)`.  The list of aligned pairs handed to the
merge keeps its order, hence `List (ℤ × ℤ)`. -/

/-- KG1 ids already used in a supervision set (first columns of the file). -/
def kg1Ids (sup : Finset (ℤ × ℤ)) : Finset ℤ := sup.image Prod.fst

/-- KG2 ids already used in a supervision set (second columns of the file). -/
def kg2Ids (sup : Finset (ℤ × ℤ)) : Finset ℤ := sup.image Prod.snd

/-- Filter condition of `add_to_sup_pairs`: a candidate pair is kept when its
KG1 id is unused, its KG2 id is unused, and the exact pair is absent.  The
three `continue` branches of the Python loop are the three conjuncts. -/
def acceptPair (sup : Finset (ℤ × ℤ)) (p : ℤ × ℤ) : Bool :=
  decide (p.1 ∉ kg1Ids sup ∧ p.2 ∉ kg2Ids sup ∧ p ∉ sup)

/-- Embedding of `add_to_sup_pairs`: filters the incoming aligned pairs
against the existing set, unions the survivors in, and returns the new set
together with the returned count `len(new_pairs)`. -/
def addToSupPairs (sup : Finset (ℤ × ℤ)) (aligned : List (ℤ × ℤ)) :
    Finset (ℤ × ℤ) × ℕ :=
  let newPairs := aligned.filter (acceptPair sup)
  (sup ∪ newPairs.toFinset, newPairs.length)

/-- Order in which the merged `sup_pairs` file is rewritten:
ascending `(kg1_id, kg2_id)`, Python `sorted(..., key=lambda x: (x[0], x[1]))`. -/
def pairLe (p q : ℤ × ℤ) : Prop := p.1 < q.1 ∨ (p.1 = q.1 ∧ p.2 ≤ q.2)

instance : DecidableRel pairLe := fun p q => by unfold pairLe; infer_instance

instance : IsTotal (ℤ × ℤ) pairLe := by
  constructor
  rintro ⟨a1, a2⟩ ⟨b1, b2⟩
  simp only [pairLe]
  omega

instance : IsTrans (ℤ × ℤ) pairLe := by
  constructor
  rintro ⟨a1, a2⟩ ⟨b1, b2⟩ ⟨c1, c2⟩
  simp only [pairLe]
  omega

instance : IsAntisymm (ℤ × ℤ) pairLe := by
  constructor
  rintro ⟨a1, a2⟩ ⟨b1, b2⟩
  simp only [pairLe, Prod.mk.injEq]
  omega

/-- Sequence of lines written back to the `sup_pairs` file after a merge. -/
def supPairsFileLines (sup : Finset (ℤ × ℤ)) : List (ℤ × ℤ) :=
  sup.sort pairLe

/-- One-to-one invariant of the supervision set: no KG1 id and no KG2 id
occurs in two different pairs. -/
def oneToOne (sup : Finset (ℤ × ℤ)) : Prop :=
  ∀ p ∈ sup, ∀ q ∈ sup, (p.1 = q.1 ∨ p.2 = q.2) → p = q

instance (sup : Finset (ℤ × ℤ)) : Decidable (oneToOne sup) := by
  unfold oneToOne; infer_instance

/-- A batch of candidate pairs that itself uses each KG1 id at most once and
each KG2 id at most once. -/
def batchOneToOne (l : List (ℤ × ℤ)) : Prop :=
  (l.map Prod.fst).Nodup ∧ (l.map Prod.snd).Nodup

instance (l : List (ℤ × ℤ)) : Decidable (batchOneToOne l) := by
  unfold batchOneToOne; infer_instance

lemma mem_addToSupPairs {sup : Finset (ℤ × ℤ)} {aligned : List (ℤ × ℤ)}
    {p : ℤ × ℤ} :
    p ∈ (addToSupPairs sup aligned).1 ↔
      p ∈ sup ∨ (p ∈ aligned ∧ p.1 ∉ kg1Ids sup ∧ p.2 ∉ kg2Ids sup ∧ p ∉ sup) := by
  simp only [addToSupPairs, Finset.mem_union, List.mem_toFinset, List.mem_filter,
    acceptPair, decide_eq_true_eq]

lemma oneToOne_addToSupPairs {sup : Finset (ℤ × ℤ)} {aligned : List (ℤ × ℤ)}
    (hsup : oneToOne sup) (hal : batchOneToOne aligned) :
    oneToOne (addToSupPairs sup aligned).1 := by
  intro p hp q hq hcol
  rw [mem_addToSupPairs] at hp hq
  have fstNodup : ((aligned.filter (acceptPair sup)).map Prod.fst).Nodup :=
    ((List.filter_sublist _).map Prod.fst).nodup hal.1
  have sndNodup : ((aligned.filter (acceptPair sup)).map Prod.snd).Nodup :=
    ((List.filter_sublist _).map Prod.snd).nodup hal.2
  have memFilter : ∀ r : ℤ × ℤ,
      (r ∈ aligned ∧ r.1 ∉ kg1Ids sup ∧ r.2 ∉ kg2Ids sup ∧ r ∉ sup) →
      r ∈ aligned.filter (acceptPair sup) := by
    intro r hr
    simp only [List.mem_filter, acceptPair, decide_eq_true_eq]
    tauto
  rcases hp with hp | hp <;> rcases hq with hq | hq
  · exact hsup p hp q hq hcol
  · exfalso
    rcases hcol with h1 | h2
    · exact hq.2.1 (Finset.mem_image.mpr ⟨p, hp, h1⟩)
    · exact hq.2.2.1 (Finset.mem_image.mpr ⟨p, hp, h2⟩)
  · exfalso
    rcases hcol with h1 | h2
    · exact hp.2.1 (Finset.mem_image.mpr ⟨q, hq, h1.symm⟩)
    · exact hp.2.2.1 (Finset.mem_image.mpr ⟨q, hq, h2.symm⟩)
  · have hpF := memFilter p hp
    have hqF := memFilter q hq
    rcases hcol with h1 | h2
    · exact List.inj_on_of_nodup_map fstNodup hpF hqF h1
    · exact List.inj_on_of_nodup_map sndNodup hpF hqF h2

/-- Folding a whole sequence of merges. -/
def mergeAll (sup : Finset (ℤ × ℤ)) (batches : List (List (ℤ × ℤ))) :
    Finset (ℤ × ℤ) :=
  batches.foldl (fun s b => (addToSupPairs s b).1) sup

/-- **C1 counterexample.**  The claim quantifies over arbitrary candidate
lists, but `add_to_sup_pairs` checks each candidate only against the
pre-existing file, never against candidates accepted earlier in the same
call: starting from the empty (trivially one-to-one) supervision set, the
single merge of `[(1,100), (2,100)]` accepts both pairs, so KG2 id `100`
ends up in two pairs. -/
theorem add_to_sup_pairs_not_one_to_one :
    oneToOne (∅ : Finset (ℤ × ℤ)) ∧
      addToSupPairs ∅ [(1, 100), (2, 100)] = ({(1, 100), (2, 100)}, 2) ∧
      ¬ oneToOne (addToSupPairs ∅ [(1, 100), (2, 100)]).1 := by
  refine ⟨by decide, by decide, ?_⟩
  intro h
  have := h (1, 100) (by decide) (2, 100) (by decide) (by decide)
  simp at this

/-- **C1 (amended).**  If the initial supervision set is one-to-one and every
merged candidate list itself mentions each KG1 id at most once and each KG2
id at most once, then after any sequence of `add_to_sup_pairs` calls the
supervision set still contains no KG1 id and no KG2 id more than once. -/
theorem sup_pairs_one_to_one_invariant (sup : Finset (ℤ × ℤ))
    (batches : List (List (ℤ × ℤ))) (hsup : oneToOne sup)
    (hb : ∀ b ∈ batches, batchOneToOne b) :
    oneToOne (mergeAll sup batches) := by
  induction batches generalizing sup with
  | nil => exact hsup
  | cons b bs ih =>
    have hstep := oneToOne_addToSupPairs hsup (hb b (List.mem_cons_self b bs))
    exact ih _ hstep (fun c hc => hb c (List.mem_cons_of_mem b hc))

/-- Instantiation of `sup_pairs_one_to_one_invariant` at concrete data. -/
theorem sup_pairs_one_to_one_invariant_witness :
    oneToOne (mergeAll {((1 : ℤ), (100 : ℤ))} [[(1, 200), (2, 300)], [(3, 300), (2, 100)]]) :=
  sup_pairs_one_to_one_invariant _ _ (by decide) (by decide)

/-- **C2.**  A single merge accepts a candidate pair exactly when its KG1 id,
its KG2 id and the exact pair are all absent from the pre-existing set;
accepted pairs are unioned in; the returned count is the number of pairs that
actually entered the set (zero included); the file is rewritten in ascending
`(kg1, kg2)` order; and on the set `{(1,100)}` the pairs `(1,200)` and
`(2,100)` are rejected while `(2,300)` is accepted. -/
theorem add_to_sup_pairs_filter_spec :
    (∀ (sup : Finset (ℤ × ℤ)) (aligned : List (ℤ × ℤ)) (p : ℤ × ℤ),
        p ∈ (addToSupPairs sup aligned).1 ↔
          p ∈ sup ∨ (p ∈ aligned ∧ p.1 ∉ kg1Ids sup ∧ p.2 ∉ kg2Ids sup ∧ p ∉ sup)) ∧
    (∀ (sup : Finset (ℤ × ℤ)) (aligned : List (ℤ × ℤ)), aligned.Nodup →
        (addToSupPairs sup aligned).2 = ((addToSupPairs sup aligned).1 \ sup).card) ∧
    (∀ sup : Finset (ℤ × ℤ), List.Sorted pairLe (supPairsFileLines sup) ∧
        ∀ p : ℤ × ℤ, p ∈ supPairsFileLines sup ↔ p ∈ sup) ∧
    addToSupPairs {(1, 100)} [(1, 200)] = ({(1, 100)}, 0) ∧
    addToSupPairs {(1, 100)} [(2, 100)] = ({(1, 100)}, 0) ∧
    addToSupPairs {(1, 100)} [(2, 300)] = ({(1, 100), (2, 300)}, 1) := by
  refine ⟨fun sup aligned p => mem_addToSupPairs, ?_, ?_, by decide, by decide, by decide⟩
  · intro sup aligned h
    have hdisj : Disjoint ((aligned.filter (acceptPair sup)).toFinset) sup := by
      rw [Finset.disjoint_left]
      intro a ha hs
      rw [List.mem_toFinset, List.mem_filter, acceptPair, decide_eq_true_eq] at ha
      exact ha.2.2.2 hs
    have hn : (aligned.filter (acceptPair sup)).Nodup := h.filter _
    simp only [addToSupPairs, Finset.union_sdiff_left, Finset.sdiff_eq_self_of_disjoint hdisj]
    exact (List.toFinset_card_of_nodup hn).symm
  · intro sup
    exact ⟨Finset.sort_sorted pairLe sup, fun p => Finset.mem_sort pairLe⟩

/-- Instantiation of `add_to_sup_pairs_filter_spec` at concrete data:
the count returned for the accepted pair `(2,300)` matches the number of
pairs that newly entered the set. -/
theorem add_to_sup_pairs_filter_spec_witness :
    (addToSupPairs {((1 : ℤ), (100 : ℤ))} [(2, 300)]).2 =
      ((addToSupPairs {((1 : ℤ), (100 : ℤ))} [(2, 300)]).1 \ {((1 : ℤ), (100 : ℤ))}).card :=
  add_to_sup_pairs_filter_spec.2.1 {(1, 100)} [(2, 300)] (by decide)

/-! ## Temporal interval merging:
`HypergraphDecomposition._get_common_time_intervals` in
`multi_scale_hypergraph_retrieval/hypergraph_decomposition.py`.

The per-entity time-id sets are `Finset ℤ` (Python sets of ints).  The
Python loop walks the sorted intersection carrying the open run
`(start, end)`; `mergeRunsGo` is that loop, one call per remaining list. -/

/-- Loop of `_get_common_time_intervals` over `sorted_times[1:]`, carrying the
current run `(start, e)`: an element equal to `e + 1` extends the run,
anything else closes the run and opens a new one; the final run is appended
after the loop. -/
def mergeRunsGo : List ℤ → ℤ → ℤ → List (ℤ × ℤ)
  | [], start, e => [(start, e)]
  | t :: ts, start, e =>
      if t = e + 1 then mergeRunsGo ts start t else (start, e) :: mergeRunsGo ts t t

/-- Merge of a sorted list of time ids into maximal closed intervals
(`_get_common_time_intervals` after the intersection has been sorted). -/
def mergeRuns : List ℤ → List (ℤ × ℤ)
  | [] => []
  | t :: ts => mergeRunsGo ts t t

/-- Ascending enumeration of a set of time ids, Python `sorted(common_times)`
(insertion sort of any underlying enumeration; well defined because the
strictly sorted enumeration of a duplicate-free collection is unique). -/
def sortedTimes (s : Finset ℤ) : List ℤ :=
  Quot.liftOn s.1 (fun l => List.insertionSort (· ≤ ·) l)
    (fun _ _ h => List.eq_of_perm_of_sorted
      ((List.perm_insertionSort _ _).trans (h.trans (List.perm_insertionSort _ _).symm))
      (List.sorted_insertionSort _ _) (List.sorted_insertionSort _ _))

lemma sortedTimes_sorted (s : Finset ℤ) : (sortedTimes s).Sorted (· ≤ ·) := by
  rcases s with ⟨m, hm⟩
  induction m using Quot.inductionOn with
  | _ l => exact List.sorted_insertionSort _ _

lemma mem_sortedTimes {s : Finset ℤ} {x : ℤ} : x ∈ sortedTimes s ↔ x ∈ s := by
  rcases s with ⟨m, hm⟩
  induction m using Quot.inductionOn with
  | _ l =>
    show x ∈ List.insertionSort (· ≤ ·) l ↔ _
    rw [(List.perm_insertionSort (· ≤ ·) l).mem_iff]
    rfl

lemma sortedTimes_nodup (s : Finset ℤ) : (sortedTimes s).Nodup := by
  rcases s with ⟨m, hm⟩
  induction m using Quot.inductionOn with
  | _ l => exact (List.perm_insertionSort (· ≤ ·) l).nodup_iff.mpr hm

lemma sortedTimes_sorted_lt (s : Finset ℤ) : (sortedTimes s).Sorted (· < ·) :=
  (sortedTimes_sorted s).lt_of_le (sortedTimes_nodup s)

/-- Embedding of `_get_common_time_intervals` on the two time-id sets: sort
the intersection and merge consecutive runs (an empty intersection gives the
empty interval list). -/
def commonTimeIntervals (times1 times2 : Finset ℤ) : List (ℤ × ℤ) :=
  mergeRuns (sortedTimes (times1 ∩ times2))

/-- Invariants of the run-merging loop, proved together by induction on the
remaining sorted tail: intervals are separated by true gaps, are valid,
start at `start` or at a list element, and cover exactly `[start, e]` plus
the remaining elements. -/
lemma mergeRunsGo_spec (ts : List ℤ) (start e : ℤ) (h1 : start ≤ e)
    (h2 : ts.Pairwise (· < ·)) (h3 : ∀ t ∈ ts, e < t) :
    ((mergeRunsGo ts start e).Pairwise fun p q => p.2 + 1 < q.1) ∧
    (∀ p ∈ mergeRunsGo ts start e, p.1 ≤ p.2) ∧
    (∀ p ∈ mergeRunsGo ts start e, p.1 = start ∨ p.1 ∈ ts) ∧
    (∀ x : ℤ, (∃ p ∈ mergeRunsGo ts start e, p.1 ≤ x ∧ x ≤ p.2) ↔
      (start ≤ x ∧ x ≤ e) ∨ x ∈ ts) := by
  induction ts generalizing start e with
  | nil =>
    simp only [mergeRunsGo]
    refine ⟨by simp, by simpa using h1, by simp, ?_⟩
    intro x
    simp
  | cons t ts ih =>
    have het : e < t := h3 t (List.mem_cons_self t ts)
    have hts : ts.Pairwise (· < ·) := h2.of_cons
    have htlt : ∀ u ∈ ts, t < u := fun u hu => List.rel_of_pairwise_cons h2 hu
    by_cases hadj : t = e + 1
    · have hrec := ih start t (by omega) hts (by intro u hu; have := htlt u hu; omega)
      simp only [mergeRunsGo, if_pos hadj]
      refine ⟨hrec.1, hrec.2.1, ?_, ?_⟩
      · intro p hp
        rcases hrec.2.2.1 p hp with h | h
        · exact Or.inl h
        · exact Or.inr (List.mem_cons_of_mem t h)
      · intro x
        rw [hrec.2.2.2 x]
        constructor
        · rintro (⟨hx1, hx2⟩ | hx)
          · by_cases hxe : x ≤ e
            · exact Or.inl ⟨hx1, hxe⟩
            · have : x = t := by omega
              exact Or.inr (this ▸ List.mem_cons_self t ts)
          · exact Or.inr (List.mem_cons_of_mem t hx)
        · rintro (⟨hx1, hx2⟩ | hx)
          · exact Or.inl ⟨hx1, by omega⟩
          · rcases List.mem_cons.mp hx with rfl | hx
            · exact Or.inl ⟨by omega, le_refl x⟩
            · exact Or.inr hx
    · have hgap : e + 1 < t := by omega
      have hrec := ih t t (le_refl t) hts htlt
      simp only [mergeRunsGo, if_neg hadj]
      refine ⟨?_, ?_, ?_, ?_⟩
      · refine List.pairwise_cons.mpr ⟨?_, hrec.1⟩
        intro p hp
        rcases hrec.2.2.1 p hp with h | h
        · omega
        · have := htlt p.1 h; omega
      · intro p hp
        rcases List.mem_cons.mp hp with rfl | hp
        · exact h1
        · exact hrec.2.1 p hp
      · intro p hp
        rcases List.mem_cons.mp hp with rfl | hp
        · exact Or.inl rfl
        · rcases hrec.2.2.1 p hp with h | h
          · exact Or.inr (h ▸ List.mem_cons_self t ts)
          · exact Or.inr (List.mem_cons_of_mem t h)
      · intro x
        constructor
        · rintro ⟨p, hp, hx1, hx2⟩
          rcases List.mem_cons.mp hp with rfl | hp
          · exact Or.inl ⟨hx1, hx2⟩
          · rcases (hrec.2.2.2 x).mp ⟨p, hp, hx1, hx2⟩ with ⟨h, h'⟩ | h
            · have : x = t := by omega
              exact Or.inr (this ▸ List.mem_cons_self t ts)
            · exact Or.inr (List.mem_cons_of_mem t h)
        · rintro (⟨hx1, hx2⟩ | hx)
          · exact ⟨(start, e), List.mem_cons_self _ _, hx1, hx2⟩
          · rcases List.mem_cons.mp hx with rfl | hx
            · obtain ⟨p, hp, h⟩ := (hrec.2.2.2 x).mpr (Or.inl ⟨le_refl x, le_refl x⟩)
              exact ⟨p, List.mem_cons_of_mem _ hp, h⟩
            · obtain ⟨p, hp, h⟩ := (hrec.2.2.2 x).mpr (Or.inr hx)
              exact ⟨p, List.mem_cons_of_mem _ hp, h⟩

/-- **C4.**  For any two time-id sets, the interval list over their
intersection is pairwise separated by gaps of at least one missing integer
(hence sorted, non-overlapping and non-adjacent), every interval is valid
and maximal (its two outer neighbours are missing from the intersection),
the covered integers are exactly the intersection, and an empty intersection
yields the empty list. -/
theorem common_time_intervals_spec (t1 t2 : Finset ℤ) :
    ((commonTimeIntervals t1 t2).Pairwise fun p q => p.2 + 1 < q.1) ∧
    (∀ p ∈ commonTimeIntervals t1 t2, p.1 ≤ p.2) ∧
    (∀ x : ℤ, (∃ p ∈ commonTimeIntervals t1 t2, p.1 ≤ x ∧ x ≤ p.2) ↔ x ∈ t1 ∩ t2) ∧
    (∀ p ∈ commonTimeIntervals t1 t2, p.1 - 1 ∉ t1 ∩ t2 ∧ p.2 + 1 ∉ t1 ∩ t2) ∧
    (t1 ∩ t2 = ∅ → commonTimeIntervals t1 t2 = []) := by
  have hmem : ∀ x : ℤ, x ∈ sortedTimes (t1 ∩ t2) ↔ x ∈ t1 ∩ t2 := by
    intro x; exact mem_sortedTimes
  have hsorted : (sortedTimes (t1 ∩ t2)).Pairwise (· < ·) :=
    sortedTimes_sorted_lt (t1 ∩ t2)
  unfold commonTimeIntervals
  rcases hl : sortedTimes (t1 ∩ t2) with _ | ⟨t, ts⟩
  · refine ⟨by simp [mergeRuns], by simp [mergeRuns], ?_, by simp [mergeRuns], by simp [mergeRuns]⟩
    intro x
    simp only [mergeRuns, List.not_mem_nil, false_and, exists_false, false_iff]
    rw [← hmem x, hl]
    exact List.not_mem_nil x
  · rw [hl] at hsorted hmem
    have hspec := mergeRunsGo_spec ts t t (le_refl t) hsorted.of_cons
      (fun u hu => List.rel_of_pairwise_cons hsorted hu)
    have hcov : ∀ x : ℤ, (∃ p ∈ mergeRunsGo ts t t, p.1 ≤ x ∧ x ≤ p.2) ↔ x ∈ t1 ∩ t2 := by
      intro x
      rw [hspec.2.2.2 x, ← hmem x]
      constructor
      · rintro (⟨h1, h2⟩ | h)
        · have : x = t := by omega
          exact this ▸ List.mem_cons_self t ts
        · exact List.mem_cons_of_mem t h
      · intro h
        rcases List.mem_cons.mp h with rfl | h
        · exact Or.inl ⟨le_refl x, le_refl x⟩
        · exact Or.inr h
    refine ⟨hspec.1, hspec.2.1, hcov, ?_, ?_⟩
    · intro p hp
      have hPW : (mergeRunsGo ts t t).Pairwise
          (fun a b => a.2 + 1 < b.1 ∨ b.2 + 1 < a.1) :=
        hspec.1.imp (fun h => Or.inl h)
      have hforall := hPW.forall (fun _ _ h => Or.symm h)
      have hv := hspec.2.1 p hp
      constructor
      · intro hmem1
        obtain ⟨q, hq, hq1, hq2⟩ := (hcov (p.1 - 1)).mpr hmem1
        by_cases hqp : q = p
        · subst hqp; omega
        · rcases hforall hq hp hqp with h | h <;> omega
      · intro hmem1
        obtain ⟨q, hq, hq1, hq2⟩ := (hcov (p.2 + 1)).mpr hmem1
        by_cases hqp : q = p
        · subst hqp; omega
        · rcases hforall hq hp hqp with h | h <;> omega
    · intro h
      exfalso
      have : t ∈ t1 ∩ t2 := by rw [← hmem t]; exact List.mem_cons_self t ts
      rw [h] at this
      exact Finset.not_mem_empty t this

/-- Instantiation of `common_time_intervals_spec`: the time id `3`, present in
both sets, is covered by the computed interval list. -/
theorem common_time_intervals_spec_witness :
    (3 : ℤ) ∈ ({1, 2, 3, 5} : Finset ℤ) ∩ {2, 3, 5, 7} ∧
      ∃ p ∈ commonTimeIntervals {1, 2, 3, 5} {2, 3, 5, 7}, p.1 ≤ 3 ∧ (3 : ℤ) ≤ p.2 :=
  ⟨by decide, ((common_time_intervals_spec {1, 2, 3, 5} {2, 3, 5, 7}).2.2.1 3).mpr (by decide)⟩

/-! ## Iteration controller: `run_full_pipeline` in `HyDRA_main.py`.

The loop body touches the outside world (training scripts, files, the
retrieval stage); those effects are parameters of the embedding: per
iteration the pipeline environment fixes whether the S4 output file exists,
whether S4 training succeeds, the distinct-KG1 count of the frontier file,
whether the retrieval stage succeeds, whether the fusion stage raises, and
which deduplicated aligned pairs fusion produces.  A fusion exception is
modelled as leaving the supervision file untouched.  The supervision set is
threaded through `addToSupPairs` exactly as `multi_scale_fusion` does. -/

structure PipelineEnv where
  maxIterations : ℕ
  minKG1 : ℕ
  skipS4 : Bool
  s4OutputExists : ℕ → Bool
  s4TrainOk : ℕ → Bool
  kg1Count : ℕ → ℕ
  retrievalOk : ℕ → Bool
  fusionExc : ℕ → Bool
  fusionPairs : ℕ → List (ℤ × ℤ)

structure PipelineResult where
  success : Bool
  retrievalIters : List ℕ
  fusionIters : List ℕ
  sup : Finset (ℤ × ℤ)
  deriving DecidableEq

/-- Step 1 of an iteration aborts the whole run exactly when S4 produces no
usable output and the iteration is the first one (`return False` branches of
`run_full_pipeline`). -/
def s4Fatal (env : PipelineEnv) (i : ℕ) : Bool :=
  if !env.skipS4 then
    if env.s4OutputExists i && decide (1 < i) then false
    else if env.s4TrainOk i then false
    else decide (i = 1)
  else
    if !env.s4OutputExists i then decide (i = 1) else false

/-- Loop body of `run_full_pipeline` over the list of remaining iteration
numbers.  `rIters`/`fIters` accumulate (reversed) the iterations in which the
retrieval stage resp. the fusion stage were invoked. -/
def runLoop (env : PipelineEnv) :
    List ℕ → Finset (ℤ × ℤ) → List ℕ → List ℕ → PipelineResult
  | [], sup, rIters, fIters => ⟨true, rIters.reverse, fIters.reverse, sup⟩
  | i :: rest, sup, rIters, fIters =>
    if s4Fatal env i then ⟨false, rIters.reverse, fIters.reverse, sup⟩
    else if env.kg1Count i < env.minKG1 then ⟨true, rIters.reverse, fIters.reverse, sup⟩
    else if env.retrievalOk i then
      let pairs := env.fusionPairs i
      let sup' := if env.fusionExc i then sup
        else if pairs.isEmpty then sup else (addToSupPairs sup pairs).1
      if !env.fusionExc i && !pairs.isEmpty then
        runLoop env rest sup' (i :: rIters) (i :: fIters)
      else if i = 1 then ⟨false, (i :: rIters).reverse, (i :: fIters).reverse, sup'⟩
      else runLoop env rest sup' (i :: rIters) (i :: fIters)
    else if i = 1 then ⟨false, (i :: rIters).reverse, fIters.reverse, sup⟩
    else runLoop env rest sup (i :: rIters) fIters

/-- Embedding of the iterative part of `run_full_pipeline` (the `--only_s4`
shortcut exits before this loop): iterations run from `1` to
`max_iterations`, starting from the persisted supervision set `sup0`. -/
def runFullPipeline (env : PipelineEnv) (sup0 : Finset (ℤ × ℤ)) : PipelineResult :=
  runLoop env (List.range' 1 env.maxIterations) sup0 [] []

lemma runLoop_stops_below_threshold (env : PipelineEnv)
    (hs4 : ∀ j < env.maxIterations + 1, s4Fatal env j = false)
    (i : ℕ) (hbelow : env.kg1Count i < env.minKG1) (himax : i ≤ env.maxIterations) :
    ∀ (m j : ℕ) (sup : Finset (ℤ × ℤ)) (rs fs : List ℕ),
      j ≤ i → i < j + m → j + m ≤ env.maxIterations + 1 →
      (∀ t, j ≤ t → t < i →
        env.minKG1 ≤ env.kg1Count t ∧ env.retrievalOk t = true ∧
        env.fusionExc t = false ∧ env.fusionPairs t ≠ []) →
      runLoop env (List.range' j m) sup rs fs =
        ⟨true, rs.reverse ++ List.range' j (i - j), fs.reverse ++ List.range' j (i - j),
          mergeAll sup ((List.range' j (i - j)).map env.fusionPairs)⟩ := by
  intro m
  induction m with
  | zero => intro j sup rs fs hji hij _ _; omega
  | succ m ih =>
    intro j sup rs fs hji hij hmax hgood
    rw [List.range'_succ]
    by_cases hije : j = i
    · subst hije
      have hf : s4Fatal env j = false := hs4 j (by omega)
      simp only [runLoop, hf, if_pos hbelow, Nat.sub_self, List.range', List.append_nil,
        List.map_nil, mergeAll, List.foldl_nil, Bool.false_eq_true, if_false]
    · have hjlt : j < i := by omega
      have hg := hgood j (le_refl j) hjlt
      have hf : s4Fatal env j = false := hs4 j (by omega)
      have hne : ¬ env.kg1Count j < env.minKG1 := by omega
      have hemp : (env.fusionPairs j).isEmpty = false := by
        rcases h : env.fusionPairs j with _ | _
        · exact absurd h hg.2.2.2
        · rfl
      simp only [runLoop, hf, Bool.false_eq_true, if_false, hne, hg.2.1, if_true,
        hg.2.2.1, hemp, Bool.not_false, Bool.and_self, if_true]
      rw [ih (j + 1) (addToSupPairs sup (env.fusionPairs j)).1 (j :: rs) (j :: fs)
        (by omega) (by omega) (by omega)
        (fun t ht1 ht2 => hgood t (by omega) ht2)]
      have hrange : List.range' j (i - j) = j :: List.range' (j + 1) (i - (j + 1)) := by
        have : i - j = (i - (j + 1)) + 1 := by omega
        rw [this, List.range'_succ]
      rw [hrange]
      simp [mergeAll, List.map_cons]

/-- **C3.**  If every S4 step is non-fatal, every iteration before `i`
clears the frontier threshold and succeeds, and iteration `i`'s frontier
count falls below the threshold, then the run stops at iteration `i`'s count
check with a success result: the retrieval/decomposition stage and the
fusion stage ran exactly in iterations `1 .. i-1`, never in iteration `i`,
and the final supervision set is the initial one merged with exactly the
fusion outputs of iterations `1 .. i-1`. -/
theorem pipeline_stops_below_threshold (env : PipelineEnv) (sup0 : Finset (ℤ × ℤ))
    (i : ℕ) (h1i : 1 ≤ i) (himax : i ≤ env.maxIterations)
    (hs4 : ∀ j < env.maxIterations + 1, s4Fatal env j = false)
    (hbelow : env.kg1Count i < env.minKG1)
    (hgood : ∀ t < i, 1 ≤ t →
      env.minKG1 ≤ env.kg1Count t ∧ env.retrievalOk t = true ∧
      env.fusionExc t = false ∧ env.fusionPairs t ≠ []) :
    runFullPipeline env sup0 =
      ⟨true, List.range' 1 (i - 1), List.range' 1 (i - 1),
        mergeAll sup0 ((List.range' 1 (i - 1)).map env.fusionPairs)⟩ := by
  have := runLoop_stops_below_threshold env hs4 i hbelow himax env.maxIterations 1 sup0 [] []
    h1i (by omega) (by omega) (fun t ht1 ht2 => hgood t ht2 ht1)
  simpa [runFullPipeline] using this

/-- Instantiation of `pipeline_stops_below_threshold` at the scenario of the
claim: frontier unique-KG1 counts 200, 80, 40 over three iterations with
threshold 50 stop after iteration 3's count check; decomposition/retrieval
and fusion ran only in iterations 1 and 2, and the supervision set keeps
exactly the pairs merged in iterations 1 and 2. -/
theorem pipeline_stops_below_threshold_witness :
    runFullPipeline
      ⟨3, 50, true, fun _ => true, fun _ => true,
        fun j => if j = 1 then 200 else if j = 2 then 80 else 40,
        fun _ => true, fun _ => false, fun j => [((j : ℤ), (100 + j : ℤ))]⟩ ∅ =
      ⟨true, [1, 2], [1, 2], mergeAll ∅ [[(1, 101)], [(2, 102)]]⟩ := by
  have h := pipeline_stops_below_threshold
    ⟨3, 50, true, fun _ => true, fun _ => true,
      fun j => if j = 1 then 200 else if j = 2 then 80 else 40,
      fun _ => true, fun _ => false, fun j => [((j : ℤ), (100 + j : ℤ))]⟩ ∅ 3
    (by norm_num) (by norm_num) (by decide) (by norm_num) (by decide)
  simpa using h

/-! ## Hypergraph decomposition: `HypergraphDecomposition.decompose` in
`multi_scale_hypergraph_retrieval/hypergraph_decomposition.py`.

The loaded per-entity data (`kg1_entity_times`, `kg2_entity_times`,
`kg1_entity_relations`, `kg2_entity_relations`) are defaultdicts of sets,
modelled as total functions into `Finset` with empty default.  The relation
alignment dict is an association list (`ℤ × Finset ℤ`); aspect-id counters
are naturals starting at 1000000 (temporal) and 2000000 (relational). -/

/-- Embedding of `_get_common_relations`: with an empty relation-alignment
dict the result is empty; otherwise the KG2 relations aligned to any of the
KG1 entity's relation ids are collected and the KG2 entity's
`(relation, tail)` pairs are filtered down to those aligned relations. -/
def getCommonRelations (ra : List (ℤ × Finset ℤ)) (kg1Rels kg2Rels : Finset (ℤ × ℤ)) :
    Finset (ℤ × ℤ) :=
  if ra.isEmpty then ∅
  else
    let kg1RelIds := kg1Rels.image Prod.fst
    let alignedIds : Finset ℤ :=
      kg1RelIds.biUnion fun r => ((ra.find? fun e => e.1 == r).map Prod.snd).getD ∅
    kg2Rels.filter fun p => p.1 ∈ alignedIds

/-- Mutable state of one `decompose()` run: the two aspect-id counters, the
aspect dictionaries, the aspect-to-original mapping, and the two returned
pair lists, all in allocation order. -/
structure DecompState where
  temporalAspectCounter : ℕ
  relationalAspectCounter : ℕ
  temporalAspects : List (ℕ × ℤ × List (ℤ × ℤ))
  relationalAspects : List (ℕ × ℤ × Finset (ℤ × ℤ))
  aspectToOriginal : List (ℕ × ℤ)
  temporalPairs : List (ℤ × ℕ)
  relationalPairs : List (ℤ × ℕ)
  deriving DecidableEq

/-- Counter start values from `HypergraphDecomposition.__init__`. -/
def initDecompState : DecompState := ⟨1000000, 2000000, [], [], [], [], []⟩

/-- Allocation of one temporal aspect for frontier pair `(k, o)` with
interval payload `ivs`: read the counter, bump it, extend the dict, the
mapping and the returned pair list. -/
def tempAlloc (st : DecompState) (k o : ℤ) (ivs : List (ℤ × ℤ)) : DecompState where
  temporalAspectCounter := st.temporalAspectCounter + 1
  relationalAspectCounter := st.relationalAspectCounter
  temporalAspects := st.temporalAspects ++ [(st.temporalAspectCounter, o, ivs)]
  relationalAspects := st.relationalAspects
  aspectToOriginal := st.aspectToOriginal ++ [(st.temporalAspectCounter, o)]
  temporalPairs := st.temporalPairs ++ [(k, st.temporalAspectCounter)]
  relationalPairs := st.relationalPairs

/-- Allocation of one relational aspect for frontier pair `(k, o)` with
relation payload `crs`. -/
def relAlloc (st : DecompState) (k o : ℤ) (crs : Finset (ℤ × ℤ)) : DecompState where
  temporalAspectCounter := st.temporalAspectCounter
  relationalAspectCounter := st.relationalAspectCounter + 1
  temporalAspects := st.temporalAspects
  relationalAspects := st.relationalAspects ++ [(st.relationalAspectCounter, o, crs)]
  aspectToOriginal := st.aspectToOriginal ++ [(st.relationalAspectCounter, o)]
  temporalPairs := st.temporalPairs
  relationalPairs := st.relationalPairs ++ [(k, st.relationalAspectCounter)]

/-- Temporal half of the `decompose()` loop body: allocate iff the common
interval list is non-empty. -/
def tempStep (times1 times2 : ℤ → Finset ℤ) (pr : ℤ × ℤ) (st : DecompState) : DecompState :=
  if (commonTimeIntervals (times1 pr.1) (times2 pr.2)).isEmpty then st
  else tempAlloc st pr.1 pr.2 (commonTimeIntervals (times1 pr.1) (times2 pr.2))

/-- Relational half of the `decompose()` loop body: allocate iff the common
relation set is non-empty. -/
def relStep (ra : List (ℤ × Finset ℤ)) (rels1 rels2 : ℤ → Finset (ℤ × ℤ))
    (pr : ℤ × ℤ) (st : DecompState) : DecompState :=
  if getCommonRelations ra (rels1 pr.1) (rels2 pr.2) = ∅ then st
  else relAlloc st pr.1 pr.2 (getCommonRelations ra (rels1 pr.1) (rels2 pr.2))

/-- Embedding of `decompose()`: fold the loop body (temporal projection then
relational projection) over the frontier pairs. -/
def decompose (times1 times2 : ℤ → Finset ℤ) (rels1 rels2 : ℤ → Finset (ℤ × ℤ))
    (ra : List (ℤ × Finset ℤ)) (pairs : List (ℤ × ℤ)) : DecompState :=
  pairs.foldl (fun st pr => relStep ra rels1 rels2 pr (tempStep times1 times2 pr st))
    initDecompState

/-- Temporal aspect ids of a run, in allocation order. -/
def temporalIds (st : DecompState) : List ℕ := st.temporalPairs.map Prod.snd

/-- Relational aspect ids of a run, in allocation order. -/
def relationalIds (st : DecompState) : List ℕ := st.relationalPairs.map Prod.snd

/-- Time-id sets of the collision scenario: KG1 entity `1` and KG2 entity
`1000000` share the time id `5`. -/
def exTimes1 : ℤ → Finset ℤ := fun e => if e = 1 then {5} else ∅

/-- KG2 side of the collision scenario. -/
def exTimes2 : ℤ → Finset ℤ := fun e => if e = 1000000 then {5} else ∅

/-- Relation sets of the collision scenario (none). -/
def noRels : ℤ → Finset (ℤ × ℤ) := fun _ => ∅

/-- **C5 counterexample.**  Nothing keeps real entity ids below the counter
start value `1000000`: decomposing the single frontier pair `(1, 1000000)`
(whose entities share time id `5`) allocates the temporal aspect id
`1000000`, which is exactly the real KG2 entity id occurring in that very
pair, so generated aspect ids can collide with real entity ids. -/
theorem decompose_aspect_id_collision :
    temporalIds (decompose exTimes1 exTimes2 noRels noRels [] [(1, 1000000)]) = [1000000] ∧
    ∃ a ∈ temporalIds (decompose exTimes1 exTimes2 noRels noRels [] [(1, 1000000)]),
      (a : ℤ) ∈ ([(1, 1000000)] : List (ℤ × ℤ)).map Prod.snd := by
  constructor
  · decide
  · decide

/-- Invariant carried through the `decompose()` fold. -/
def DecompInv (st : DecompState) : Prop :=
  st.temporalAspectCounter = 1000000 + (temporalIds st).length ∧
  st.relationalAspectCounter = 2000000 + (relationalIds st).length ∧
  (temporalIds st).Pairwise (· < ·) ∧
  (relationalIds st).Pairwise (· < ·) ∧
  (∀ a ∈ temporalIds st, 1000000 ≤ a ∧ a < st.temporalAspectCounter) ∧
  (∀ a ∈ relationalIds st, 2000000 ≤ a ∧ a < st.relationalAspectCounter) ∧
  (∀ a ∈ temporalIds st ++ relationalIds st, a ∈ st.aspectToOriginal.map Prod.fst)

lemma temporalIds_tempAlloc (st : DecompState) (k o : ℤ) (ivs : List (ℤ × ℤ)) :
    temporalIds (tempAlloc st k o ivs) = temporalIds st ++ [st.temporalAspectCounter] := by
  simp [temporalIds, tempAlloc]

lemma relationalIds_relAlloc (st : DecompState) (k o : ℤ) (crs : Finset (ℤ × ℤ)) :
    relationalIds (relAlloc st k o crs) = relationalIds st ++ [st.relationalAspectCounter] := by
  simp [relationalIds, relAlloc]

lemma tempAlloc_inv (st : DecompState) (k o : ℤ) (ivs : List (ℤ × ℤ))
    (h : DecompInv st) : DecompInv (tempAlloc st k o ivs) := by
  obtain ⟨h1, h2, h3, h4, h5, h6, h7⟩ := h
  refine ⟨?_, ?_, ?_, ?_, ?_, ?_, ?_⟩
  · rw [temporalIds_tempAlloc]
    simp only [tempAlloc, List.length_append, List.length_cons, List.length_nil]
    omega
  · simpa [relationalIds, tempAlloc] using h2
  · rw [temporalIds_tempAlloc]
    rw [List.pairwise_append]
    refine ⟨h3, by simp, ?_⟩
    intro a ha b hb
    simp only [List.mem_singleton] at hb
    subst hb
    exact (h5 a ha).2
  · simpa [relationalIds, tempAlloc] using h4
  · intro a ha
    rw [temporalIds_tempAlloc, List.mem_append] at ha
    simp only [tempAlloc]
    rcases ha with ha | ha
    · have := h5 a ha
      omega
    · simp only [List.mem_singleton] at ha
      omega
  · intro a ha
    simp only [relationalIds, tempAlloc] at ha
    have := h6 a ha
    simp only [tempAlloc]
    omega
  · intro a ha
    rw [List.mem_append, temporalIds_tempAlloc, List.mem_append] at ha
    simp only [tempAlloc, List.map_append, List.mem_append, List.map_cons, List.map_nil,
      List.mem_singleton]
    rcases ha with (ha | ha) | ha
    · exact Or.inl (h7 a (List.mem_append_left _ ha))
    · simp only [List.mem_singleton] at ha
      exact Or.inr ha
    · exact Or.inl (h7 a (List.mem_append_right _ (by simpa [relationalIds, tempAlloc] using ha)))

lemma relAlloc_inv (st : DecompState) (k o : ℤ) (crs : Finset (ℤ × ℤ))
    (h : DecompInv st) : DecompInv (relAlloc st k o crs) := by
  obtain ⟨h1, h2, h3, h4, h5, h6, h7⟩ := h
  refine ⟨?_, ?_, ?_, ?_, ?_, ?_, ?_⟩
  · simpa [temporalIds, relAlloc] using h1
  · rw [relationalIds_relAlloc]
    simp only [relAlloc, List.length_append, List.length_cons, List.length_nil]
    omega
  · simpa [temporalIds, relAlloc] using h3
  · rw [relationalIds_relAlloc]
    rw [List.pairwise_append]
    refine ⟨h4, by simp, ?_⟩
    intro a ha b hb
    simp only [List.mem_singleton] at hb
    subst hb
    exact (h6 a ha).2
  · intro a ha
    simp only [temporalIds, relAlloc] at ha
    have := h5 a ha
    simp only [relAlloc]
    omega
  · intro a ha
    rw [relationalIds_relAlloc, List.mem_append] at ha
    simp only [relAlloc]
    rcases ha with ha | ha
    · have := h6 a ha
      omega
    · simp only [List.mem_singleton] at ha
      omega
  · intro a ha
    rw [List.mem_append, relationalIds_relAlloc, List.mem_append] at ha
    simp only [relAlloc, List.map_append, List.mem_append, List.map_cons, List.map_nil,
      List.mem_singleton]
    rcases ha with ha | ha | ha
    · exact Or.inl (h7 a (List.mem_append_left _ (by simpa [temporalIds, relAlloc] using ha)))
    · exact Or.inl (h7 a (List.mem_append_right _ ha))
    · simp only [List.mem_singleton] at ha
      exact Or.inr ha

lemma tempStep_inv (times1 times2 : ℤ → Finset ℤ) (pr : ℤ × ℤ) (st : DecompState)
    (h : DecompInv st) :
    DecompInv (tempStep times1 times2 pr st) ∧
    (temporalIds (tempStep times1 times2 pr st)).length ≤ (temporalIds st).length + 1 := by
  unfold tempStep
  by_cases hi : (commonTimeIntervals (times1 pr.1) (times2 pr.2)).isEmpty
  · rw [if_pos hi]
    exact ⟨h, by omega⟩
  · rw [if_neg hi]
    exact ⟨tempAlloc_inv st pr.1 pr.2 _ h, by rw [temporalIds_tempAlloc]; simp⟩

lemma relStep_inv (ra : List (ℤ × Finset ℤ)) (rels1 rels2 : ℤ → Finset (ℤ × ℤ))
    (pr : ℤ × ℤ) (st : DecompState) (h : DecompInv st) :
    DecompInv (relStep ra rels1 rels2 pr st) ∧
    temporalIds (relStep ra rels1 rels2 pr st) = temporalIds st := by
  unfold relStep
  by_cases hc : getCommonRelations ra (rels1 pr.1) (rels2 pr.2) = ∅
  · rw [if_pos hc]
    exact ⟨h, rfl⟩
  · rw [if_neg hc]
    exact ⟨relAlloc_inv st pr.1 pr.2 _ h, by simp [temporalIds, relAlloc]⟩

lemma decompose_inv (times1 times2 : ℤ → Finset ℤ) (rels1 rels2 : ℤ → Finset (ℤ × ℤ))
    (ra : List (ℤ × Finset ℤ)) (pairs : List (ℤ × ℤ)) :
    DecompInv (decompose times1 times2 rels1 rels2 ra pairs) ∧
    (temporalIds (decompose times1 times2 rels1 rels2 ra pairs)).length ≤ pairs.length := by
  have base : DecompInv initDecompState := by
    refine ⟨rfl, rfl, ?_, ?_, ?_, ?_, ?_⟩ <;>
      simp [temporalIds, relationalIds, initDecompState]
  have main : ∀ (l : List (ℤ × ℤ)) (st : DecompState), DecompInv st →
      DecompInv (l.foldl
        (fun st pr => relStep ra rels1 rels2 pr (tempStep times1 times2 pr st)) st) ∧
      (temporalIds (l.foldl
        (fun st pr => relStep ra rels1 rels2 pr (tempStep times1 times2 pr st)) st)).length ≤
        (temporalIds st).length + l.length := by
    intro l
    induction l with
    | nil => intro st hst; exact ⟨hst, by simp⟩
    | cons p l ih =>
      intro st hst
      have ht := tempStep_inv times1 times2 p st hst
      have hr := relStep_inv ra rels1 rels2 p _ ht.1
      have := ih _ hr.1
      refine ⟨this.1, ?_⟩
      simp only [List.foldl_cons, List.length_cons]
      have := this.2
      rw [hr.2] at this
      omega
  have := main pairs initDecompState base
  refine ⟨this.1, ?_⟩
  have h2 := this.2
  simpa [decompose, initDecompState, temporalIds] using h2

/-- **C5 (amended).**  Provided every real entity id is below the temporal
counter start `1000000` and the frontier holds at most `1000000` pairs, one
`decompose()` run allocates strictly increasing (hence never reused) aspect
ids per kind, the temporal and relational id ranges cannot meet, no aspect
id collides with a real entity id, and every allocated aspect id has an
entry in the aspect-to-original mapping. -/
theorem decompose_aspect_ids_spec (times1 times2 : ℤ → Finset ℤ)
    (rels1 rels2 : ℤ → Finset (ℤ × ℤ)) (ra : List (ℤ × Finset ℤ))
    (pairs : List (ℤ × ℤ)) (realIds : Finset ℤ)
    (hreal : ∀ x ∈ realIds, x < 1000000) (hlen : pairs.length ≤ 1000000) :
    ((temporalIds (decompose times1 times2 rels1 rels2 ra pairs)).Pairwise (· < ·)) ∧
    ((relationalIds (decompose times1 times2 rels1 rels2 ra pairs)).Pairwise (· < ·)) ∧
    (∀ a ∈ temporalIds (decompose times1 times2 rels1 rels2 ra pairs),
      ∀ b ∈ relationalIds (decompose times1 times2 rels1 rels2 ra pairs), a ≠ b) ∧
    (∀ a ∈ temporalIds (decompose times1 times2 rels1 rels2 ra pairs) ++
        relationalIds (decompose times1 times2 rels1 rels2 ra pairs),
      (a : ℤ) ∉ realIds ∧
        a ∈ (decompose times1 times2 rels1 rels2 ra pairs).aspectToOriginal.map Prod.fst) := by
  obtain ⟨⟨h1, h2, h3, h4, h5, h6, h7⟩, hlen2⟩ :=
    decompose_inv times1 times2 rels1 rels2 ra pairs
  refine ⟨h3, h4, ?_, ?_⟩
  · intro a ha b hb
    have hA := h5 a ha
    have hB := h6 b hb
    omega
  · intro a ha
    refine ⟨?_, h7 a ha⟩
    intro hmem
    have hlt := hreal _ hmem
    rcases List.mem_append.mp ha with h | h
    · have := h5 a h
      omega
    · have := h6 a h
      omega

/-- Instantiation of `decompose_aspect_ids_spec` at a small frontier whose
real ids stay below `1000000`: the allocated temporal aspect id `1000000`
does not collide with any real id and is covered by the mapping. -/
theorem decompose_aspect_ids_spec_witness :
    ((1000000 : ℤ) ∉ ({1, 2} : Finset ℤ)) ∧
      1000000 ∈
        (decompose exTimes1 exTimes1 noRels noRels [] [(1, 1)]).aspectToOriginal.map Prod.fst :=
  (decompose_aspect_ids_spec exTimes1 exTimes1 noRels noRels [] [(1, 1)] {1, 2}
    (by decide) (by decide)).2.2.2 1000000 (by decide)

/-! ## Intra-scale interaction and cross-scale conflicts:
`multi_scale_fusion/intra_scale_interaction.py`.

A multi-scale candidate set for one KG1 entity assigns each of the three
scales its ordered candidate list; confidence labels are the literal Python
strings. -/

inductive Scale where
  | L1 | L2 | L3
  deriving DecidableEq

/-- Fixed iteration order `['L1', 'L2', 'L3']` used by every loop. -/
def scaleOrder : List Scale := [Scale.L1, Scale.L2, Scale.L3]

/-- Per-scale record built by `analyze_intra_scale_interaction`. -/
structure ScaleAnalysis where
  candidateCount : ℕ
  candidates : List ℤ
  topCandidate : Option ℤ
  confidenceSignal : String
  deriving DecidableEq

/-- Body of `analyze_intra_scale_interaction` for one scale: count, ranked
candidates, rank-1 candidate, and the fixed-threshold confidence label. -/
def analyzeScale (candidates : List ℤ) : ScaleAnalysis where
  candidateCount := candidates.length
  candidates := candidates
  topCandidate := candidates.head?
  confidenceSignal :=
    if candidates.length = 1 then "strong"
    else if candidates.length ≤ 3 then "medium"
    else "weak"

/-- Embedding of `analyze_intra_scale_interaction` over the three scales. -/
def analyzeIntraScale (info : Scale → List ℤ) : Scale → ScaleAnalysis :=
  fun s => analyzeScale (info s)

/-- Candidate set of the confidence-label example: counts 1, 5 and 2. -/
def exInfoCounts : Scale → List ℤ
  | Scale.L1 => [5]
  | Scale.L2 => [24118, 23854, 25293, 26471, 25030]
  | Scale.L3 => [7, 8]

/-- **C7.**  The per-scale confidence label is `strong` for exactly one
candidate, `medium` for two or three, `weak` for more than three; at counts
1, 5 and 2 the three scales are labelled strong, weak and medium. -/
theorem confidence_label_spec :
    (∀ candidates : List ℤ,
      (candidates.length = 1 → (analyzeScale candidates).confidenceSignal = "strong") ∧
      (2 ≤ candidates.length → candidates.length ≤ 3 →
        (analyzeScale candidates).confidenceSignal = "medium") ∧
      (3 < candidates.length → (analyzeScale candidates).confidenceSignal = "weak")) ∧
    (analyzeIntraScale exInfoCounts Scale.L1).confidenceSignal = "strong" ∧
    (analyzeIntraScale exInfoCounts Scale.L2).confidenceSignal = "weak" ∧
    (analyzeIntraScale exInfoCounts Scale.L3).confidenceSignal = "medium" := by
  refine ⟨?_, by decide, by decide, by decide⟩
  intro candidates
  refine ⟨?_, ?_, ?_⟩
  · intro h
    simp [analyzeScale, h]
  · intro h2 h3
    have hne : candidates.length ≠ 1 := by omega
    simp [analyzeScale, hne, h3]
  · intro h
    have hne : candidates.length ≠ 1 := by omega
    have hgt : ¬ candidates.length ≤ 3 := by omega
    simp [analyzeScale, hne, hgt]

/-- Instantiation of `confidence_label_spec` at a two-candidate scale. -/
theorem confidence_label_spec_witness :
    (analyzeScale [(7 : ℤ), 8]).confidenceSignal = "medium" :=
  (confidence_label_spec.1 [7, 8]).2.1 (by decide) (by decide)

/-- Report produced by `detect_cross_scale_conflicts`. -/
structure CrossScaleReport where
  hasConflict : Bool
  conflictType : String
  conflictingScales : List Scale
  topCandidates : List (Scale × ℤ)
  consensusCandidate : Option ℤ
  deriving DecidableEq

/-- Rank-1 candidates of the non-empty scales, in the fixed scale order
(the Python dict `top_candidates` in insertion order). -/
def topCandidatesOf (info : Scale → List ℤ) : List (Scale × ℤ) :=
  scaleOrder.filterMap fun s => ((info s).head?).map fun c => (s, c)

/-- One step of Python's `candidate_counts[kg2_id] += 1` on an
insertion-ordered association list. -/
def bumpCount (acc : List (ℤ × ℕ)) (v : ℤ) : List (ℤ × ℕ) :=
  if acc.any fun e => e.1 == v then
    acc.map fun e => if e.1 == v then (e.1, e.2 + 1) else e
  else acc ++ [(v, 1)]

/-- Occurrence counts of the rank-1 values in first-encountered key order
(a Python `defaultdict(int)` filled by iterating `top_values`). -/
def countsInOrder (vs : List ℤ) : List (ℤ × ℕ) := vs.foldl bumpCount []

/-- Python `max(candidate_counts.items(), key=lambda x: x[1])[0]`: the first
key attaining the maximal count, `none` on an empty dict. -/
def maxByCount : List (ℤ × ℕ) → Option ℤ
  | [] => none
  | e :: es => some ((es.foldl (fun best x => if x.2 > best.2 then x else best) e).1)

/-- Embedding of `detect_cross_scale_conflicts`: fewer than two non-empty
scales or agreeing rank-1 candidates give a conflict-free report; otherwise
the majority vote over the rank-1 values is the consensus and every scale
whose rank-1 differs is dissenting. -/
def detectCrossScaleConflicts (info : Scale → List ℤ) : CrossScaleReport :=
  let tops := topCandidatesOf info
  if tops.length ≤ 1 then
    { hasConflict := false
      conflictType := "none"
      conflictingScales := []
      topCandidates := tops
      consensusCandidate := (tops.map Prod.snd).head? }
  else if (tops.map Prod.snd).toFinset.card = 1 then
    { hasConflict := false
      conflictType := "none"
      conflictingScales := []
      topCandidates := tops
      consensusCandidate := (tops.map Prod.snd).head? }
  else
    { hasConflict := true
      conflictType := "cross_scale"
      conflictingScales :=
        (tops.filter fun e => some e.2 ≠ maxByCount (countsInOrder (tops.map Prod.snd))).map
          Prod.fst
      topCandidates := tops
      consensusCandidate := maxByCount (countsInOrder (tops.map Prod.snd)) }

lemma maxByCount_pair (a b : ℤ) : maxByCount (countsInOrder [a, b]) = some a := by
  by_cases h : a = b <;>
    simp [countsInOrder, bumpCount, maxByCount, h]

lemma maxByCount_triple (a b c : ℤ) :
    maxByCount (countsInOrder [a, b, c]) =
      some (if a = b then a else if b = c then b else a) := by
  by_cases h1 : a = b
  · subst h1
    by_cases h2 : a = c
    · subst h2
      simp [countsInOrder, bumpCount, maxByCount]
    · simp [countsInOrder, bumpCount, maxByCount, h2]
  · by_cases h2 : b = c
    · subst h2
      simp [countsInOrder, bumpCount, maxByCount, h1, Ne.symm h1]
    · by_cases h3 : a = c
      · subst h3
        simp [countsInOrder, bumpCount, maxByCount, h1, h2, Ne.symm h1, Ne.symm h2]
      · simp [countsInOrder, bumpCount, maxByCount, h1, h2, h3,
          Ne.symm h1, Ne.symm h2, Ne.symm h3]

/-- Unfolding equation of `detectCrossScaleConflicts`. -/
lemma detectCrossScaleConflicts_eq (info : Scale → List ℤ) :
    detectCrossScaleConflicts info =
      if (topCandidatesOf info).length ≤ 1 then
        ⟨false, "none", [], topCandidatesOf info,
          ((topCandidatesOf info).map Prod.snd).head?⟩
      else if ((topCandidatesOf info).map Prod.snd).toFinset.card = 1 then
        ⟨false, "none", [], topCandidatesOf info,
          ((topCandidatesOf info).map Prod.snd).head?⟩
      else
        ⟨true, "cross_scale",
          ((topCandidatesOf info).filter fun e =>
            some e.2 ≠ maxByCount (countsInOrder ((topCandidatesOf info).map Prod.snd))).map
            Prod.fst,
          topCandidatesOf info,
          maxByCount (countsInOrder ((topCandidatesOf info).map Prod.snd))⟩ := rfl

lemma topCandidatesOf_length_le (info : Scale → List ℤ) :
    (topCandidatesOf info).length ≤ 3 :=
  List.length_filterMap_le _ _

/-- Candidate set of the conflict example: rank-1 candidates 5, 5 and 7. -/
def exInfoConflict : Scale → List ℤ
  | Scale.L1 => [5]
  | Scale.L2 => [5]
  | Scale.L3 => [7]

/-- **C6.**  With fewer than two non-empty scales there is no conflict and
the consensus is the sole rank-1 candidate (or none); with agreeing rank-1
candidates there is no conflict and that value is the consensus; otherwise a
conflict is reported whose consensus is a most frequent rank-1 value,
earliest in scale order among ties, and the dissenting scales are exactly
those whose rank-1 differs from the consensus.  At rank-1 candidates
`L1=5, L2=5, L3=7` the report is a conflict with consensus `5` and
dissenting scale `L3`. -/
theorem cross_scale_conflicts_spec :
    (∀ info : Scale → List ℤ, (topCandidatesOf info).length ≤ 1 →
      (detectCrossScaleConflicts info).hasConflict = false ∧
      (detectCrossScaleConflicts info).consensusCandidate =
        ((topCandidatesOf info).map Prod.snd).head?) ∧
    (∀ info : Scale → List ℤ, 2 ≤ (topCandidatesOf info).length →
      ((topCandidatesOf info).map Prod.snd).toFinset.card = 1 →
      (detectCrossScaleConflicts info).hasConflict = false ∧
      (detectCrossScaleConflicts info).consensusCandidate =
        ((topCandidatesOf info).map Prod.snd).head?) ∧
    (∀ info : Scale → List ℤ, 2 ≤ (topCandidatesOf info).length →
      ((topCandidatesOf info).map Prod.snd).toFinset.card ≠ 1 →
      (detectCrossScaleConflicts info).hasConflict = true ∧
      ∃ c, (detectCrossScaleConflicts info).consensusCandidate = some c ∧
        c ∈ (topCandidatesOf info).map Prod.snd ∧
        (∀ w ∈ (topCandidatesOf info).map Prod.snd,
          ((topCandidatesOf info).map Prod.snd).count w ≤
            ((topCandidatesOf info).map Prod.snd).count c) ∧
        (∀ w ∈ (topCandidatesOf info).map Prod.snd,
          ((topCandidatesOf info).map Prod.snd).count w =
            ((topCandidatesOf info).map Prod.snd).count c →
          ((topCandidatesOf info).map Prod.snd).indexOf c ≤
            ((topCandidatesOf info).map Prod.snd).indexOf w) ∧
        (detectCrossScaleConflicts info).conflictingScales =
          ((topCandidatesOf info).filter fun e => decide (e.2 ≠ c)).map Prod.fst) ∧
    detectCrossScaleConflicts exInfoConflict =
      ⟨true, "cross_scale", [Scale.L3], [(Scale.L1, 5), (Scale.L2, 5), (Scale.L3, 7)],
        some 5⟩ := by
  refine ⟨?_, ?_, ?_, by decide⟩
  · intro info h
    rw [detectCrossScaleConflicts_eq, if_pos h]
    exact ⟨rfl, rfl⟩
  · intro info h2 hcard
    rw [detectCrossScaleConflicts_eq, if_neg (by omega), if_pos hcard]
    exact ⟨rfl, rfl⟩
  · intro info h2 hcard
    have h3 := topCandidatesOf_length_le info
    rw [detectCrossScaleConflicts_eq, if_neg (by omega), if_neg hcard]
    refine ⟨rfl, ?_⟩
    rcases htops : topCandidatesOf info with _ | ⟨e1, _ | ⟨e2, _ | ⟨e3, _ | ⟨e4, t⟩⟩⟩⟩ <;>
      rw [htops] at h2 h3 hcard <;>
        simp only [List.length_cons, List.length_nil] at h2 h3
    · omega
    · omega
    · -- two non-empty scales
      simp only [List.map_cons, List.map_nil] at hcard ⊢
      have hne : e1.2 ≠ e2.2 := by
        intro h
        apply hcard
        rw [h]
        simp
      refine ⟨e1.2, ?_, by simp, ?_, ?_, ?_⟩
      · simp only [maxByCount_pair]
      · intro w hw
        simp only [List.mem_cons, List.not_mem_nil, or_false] at hw
        rcases hw with rfl | rfl <;> simp [List.count_cons, hne, Ne.symm hne]
      · intro w hw hcount
        simp [List.indexOf_cons_self]
      · simp only [maxByCount_pair]
        refine congrArg _ (List.filter_congr ?_)
        intro e he
        simp
    · -- three non-empty scales
      simp only [List.map_cons, List.map_nil] at hcard ⊢
      simp only [maxByCount_triple]
      by_cases h12 : e1.2 = e2.2
      · have h13 : e1.2 ≠ e3.2 := by
          intro h
          apply hcard
          rw [← h12, ← h]
          simp
        have h23a : e2.2 ≠ e3.2 := by
          rw [← h12]
          exact h13
        simp only [if_pos h12]
        refine ⟨e1.2, rfl, by simp, ?_, ?_, ?_⟩
        · intro w hw
          simp only [List.mem_cons, List.not_mem_nil, or_false] at hw
          rcases hw with rfl | rfl | rfl <;>
            simp [List.count_cons, h12, h13, h23a, Ne.symm h13, Ne.symm h23a]
        · intro w hw hcount
          simp [List.indexOf_cons_self]
        · refine congrArg _ (List.filter_congr ?_)
          intro e he
          simp
      · by_cases h23 : e2.2 = e3.2
        · have h13a : e1.2 ≠ e3.2 := by
            rw [← h23]
            exact h12
          simp only [if_neg h12, if_pos h23]
          refine ⟨e2.2, rfl, by simp, ?_, ?_, ?_⟩
          · intro w hw
            simp only [List.mem_cons, List.not_mem_nil, or_false] at hw
            rcases hw with rfl | rfl | rfl <;>
              simp [List.count_cons, h12, h23, h13a, Ne.symm h12, Ne.symm h13a]
          · intro w hw hcount
            simp only [List.mem_cons, List.not_mem_nil, or_false] at hw
            have hc1 : ([e1.2, e2.2, e3.2].count e1.2 : ℕ) = 1 := by
              rw [← h23]
              simp [List.count_cons, Ne.symm h12]
            have hc2 : ([e1.2, e2.2, e3.2].count e2.2 : ℕ) = 2 := by
              rw [← h23]
              simp [List.count_cons, Ne.symm h12, h12]
            rcases hw with rfl | rfl | rfl
            · omega
            · exact le_refl _
            · rw [← h23]
          · refine congrArg _ (List.filter_congr ?_)
            intro e he
            simp
        · simp only [if_neg h12, if_neg h23]
          refine ⟨e1.2, rfl, by simp, ?_, ?_, ?_⟩
          · intro w hw
            by_cases h13 : e1.2 = e3.2
            · simp only [List.mem_cons, List.not_mem_nil, or_false] at hw
              rcases hw with rfl | rfl | rfl <;>
                simp [List.count_cons, h12, h13, h23, Ne.symm h12, Ne.symm h23]
            · simp only [List.mem_cons, List.not_mem_nil, or_false] at hw
              rcases hw with rfl | rfl | rfl <;>
                simp [List.count_cons, h12, h13, h23, Ne.symm h12, Ne.symm h13, Ne.symm h23]
          · intro w hw hcount
            simp [List.indexOf_cons_self]
          · refine congrArg _ (List.filter_congr ?_)
            intro e he
            simp
    · omega

/-- Candidate set with a single non-empty scale, for the no-conflict branch. -/
def exInfoSingle : Scale → List ℤ
  | Scale.L1 => [9]
  | Scale.L2 => []
  | Scale.L3 => []

/-- Instantiation of `cross_scale_conflicts_spec`, no-conflict branch: a
single non-empty scale yields no conflict and its rank-1 as consensus. -/
theorem cross_scale_conflicts_spec_witness :
    (detectCrossScaleConflicts exInfoSingle).hasConflict = false ∧
    (detectCrossScaleConflicts exInfoSingle).consensusCandidate = some 9 :=
  ⟨(cross_scale_conflicts_spec.1 exInfoSingle (by decide)).1,
    (cross_scale_conflicts_spec.1 exInfoSingle (by decide)).2⟩

/-! ## Oracle answer parsing inside `fusion_task`
(`multi_scale_fusion/multi_scale_fusion.py`, result recording).

The oracle answer arrives already stripped; strings are lists of
characters.  Python `str.lower()` is `Char.toLower` (identical on the ASCII
answers compared against the literal `"no"`), and `sub in answer` is a
substring test.  The candidate set is iterated in some order; the embedding
takes that iteration order as a list. -/

/-- Python `sub in s` on character lists. -/
def isSubstring (sub s : List Char) : Bool :=
  s.tails.any fun t => sub.isPrefixOf t

/-- Loop `for kg2_id in all_candidates: if str(kg2_id) in answer: ...; break`:
the first candidate whose decimal representation occurs in the answer. -/
def scanCandidates (answer : List Char) : List ℤ → Option ℤ
  | [] => none
  | c :: cs =>
    if isSubstring (toString c).toList answer then some c else scanCandidates answer cs

/-- Embedding of the answer handling of `fusion_task`: an answer equal
(case-insensitively) to `"no"` records nothing; any other answer is scanned
for candidate-id substrings and the first hit (if any) is recorded.  The
`break` makes at most one recorded pair per KG1 entity. -/
def parseOracleAnswer (answer : List Char) (candidates : List ℤ) : Option ℤ :=
  if answer.map Char.toLower = "no".toList then none
  else scanCandidates answer candidates

/-- **C10.**  A pair is recorded exactly when the answer is not the
case-insensitive token `no` and some candidate id occurs as a substring;
the recorded id is the first match in candidate-iteration order (hence at
most one per entity per pass); and an answer like `"no match 26471"`,
although negative in intent, is still scanned — here it even yields a
recorded pair, while the exact token `"No"` records nothing. -/
theorem oracle_answer_parsing_spec :
    (∀ (answer : List Char) (candidates : List ℤ),
      (parseOracleAnswer answer candidates).isSome ↔
        (answer.map Char.toLower ≠ "no".toList ∧
          ∃ c ∈ candidates, isSubstring (toString c).toList answer = true)) ∧
    (∀ (answer : List Char) (candidates : List ℤ) (c : ℤ),
      parseOracleAnswer answer candidates = some c →
        c ∈ candidates ∧ isSubstring (toString c).toList answer = true ∧
          ∀ d ∈ candidates.take (candidates.indexOf c),
            isSubstring (toString d).toList answer = false) ∧
    parseOracleAnswer "no match 26471".toList [26471] = some 26471 ∧
    parseOracleAnswer "No".toList [26471] = none ∧
    parseOracleAnswer "no match".toList [26471] = none := by
  have hscan : ∀ (answer : List Char) (candidates : List ℤ),
      (scanCandidates answer candidates).isSome ↔
        ∃ c ∈ candidates, isSubstring (toString c).toList answer = true := by
    intro answer candidates
    induction candidates with
    | nil => simp [scanCandidates]
    | cons d ds ih =>
      by_cases hd : isSubstring (toString d).toList answer = true
      · rw [scanCandidates, if_pos hd]
        exact iff_of_true rfl ⟨d, List.mem_cons_self d ds, hd⟩
      · rw [scanCandidates, if_neg hd, ih]
        constructor
        · rintro ⟨c, hc, h⟩
          exact ⟨c, List.mem_cons_of_mem d hc, h⟩
        · rintro ⟨c, hc, h⟩
          rcases List.mem_cons.mp hc with rfl | hc
          · exact absurd h hd
          · exact ⟨c, hc, h⟩
  refine ⟨?_, ?_, by decide, by decide, by decide⟩
  · intro answer candidates
    unfold parseOracleAnswer
    by_cases hno : answer.map Char.toLower = "no".toList
    · rw [if_pos hno]
      exact iff_of_false (by simp) fun h => h.1 hno
    · rw [if_neg hno, hscan answer candidates]
      exact ⟨fun h => ⟨hno, h⟩, fun h => h.2⟩
  · intro answer candidates c
    unfold parseOracleAnswer
    by_cases hno : answer.map Char.toLower = "no".toList
    · simp [hno]
    · rw [if_neg hno]
      intro hparse
      clear hno
      induction candidates with
      | nil => simp [scanCandidates] at hparse
      | cons d ds ih =>
        by_cases hd : isSubstring (toString d).toList answer = true
        · rw [scanCandidates, if_pos hd] at hparse
          obtain rfl : d = c := by injection hparse
          refine ⟨List.mem_cons_self _ _, hd, ?_⟩
          rw [List.indexOf_cons_self]
          simp
        · rw [scanCandidates, if_neg hd] at hparse
          obtain ⟨hmem, hsub, hprev⟩ := ih hparse
          have hdc : d ≠ c := by
            intro h
            rw [h] at hd
            exact hd hsub
          refine ⟨List.mem_cons_of_mem _ hmem, hsub, ?_⟩
          rw [List.indexOf_cons_ne _ hdc]
          intro e he
          rw [List.take_succ_cons] at he
          rcases List.mem_cons.mp he with rfl | he
          · simpa using hd
          · exact hprev e he

/-- Instantiation of `oracle_answer_parsing_spec`: in answer `"id 26471"`
with candidate order `[3, 26471]` the recorded id is `26471`, no earlier
candidate matches. -/
theorem oracle_answer_parsing_spec_witness :
    (26471 : ℤ) ∈ [(3 : ℤ), 26471] ∧
      isSubstring (toString (26471 : ℤ)).toList "id 26471".toList = true ∧
      ∀ d ∈ [(3 : ℤ), 26471].take ([(3 : ℤ), 26471].indexOf 26471),
        isSubstring (toString d).toList "id 26471".toList = false :=
  oracle_answer_parsing_spec.2.1 "id 26471".toList [3, 26471] 26471 (by decide)

/-! ## Relation-name text similarity: `text_similarity` in
`scale_adaptive_entity_projection/relation_alignment.py`.

`difflib.SequenceMatcher(None, a, b).ratio()` is embedded for the no-junk
case (relation names are far below the 200-character autojunk cutoff):
`lcsuf a b alo blo i j` is the dynamic-programming value `j2len[j]` at row
`i` (the longest common suffix ending exactly at `a[i]`/`b[j]` inside the
window), `findLongestMatch` scans the window in the same order as the
Python loops keeping the first strict improvement, and `matchSumF` adds the
block sizes of the recursive block decomposition of `get_matching_blocks`
(the fuel argument bounds the recursion depth; `a.length` always
suffices).  Scores use exact rationals in place of Python floats. -/

/-- Characters at positions `i` of `a` and `j` of `b` exist and agree. -/
def chMatch (a b : List Char) (i j : ℕ) : Bool :=
  match a[i]?, b[j]? with
  | some x, some y => x == y
  | _, _ => false

/-- Longest common suffix ending exactly at `(i, j)` without leaving the
window that starts at `(alo, blo)` (difflib's `j2len` recurrence
`newj2len[j] = j2len.get(j-1, 0) + 1`). -/
def lcsuf (a b : List Char) (alo blo : ℕ) : ℕ → ℕ → ℕ
  | i, j =>
    if chMatch a b i j then
      1 + (match i, j with
           | i' + 1, j' + 1 =>
             if alo ≤ i' ∧ blo ≤ j' then lcsuf a b alo blo i' j' else 0
           | _, _ => 0)
    else 0

/-- Scan of the candidate cells in the Python loop order, keeping the first
strictly better block (`if k > bestsize`); the initial best is
`(alo, blo, 0)`. -/
def flmScan (a b : List Char) (alo blo : ℕ) (cands : List (ℕ × ℕ)) : ℕ × ℕ × ℕ :=
  cands.foldl
    (fun best ij =>
      let k := lcsuf a b alo blo ij.1 ij.2
      if best.2.2 < k then (ij.1 + 1 - k, ij.2 + 1 - k, k) else best)
    (alo, blo, 0)

/-- Embedding of `find_longest_match` on the window
`a[alo:ahi]`/`b[blo:bhi]` (no junk, so the junk-extension loops are
no-ops). -/
def findLongestMatch (a b : List Char) (alo ahi blo bhi : ℕ) : ℕ × ℕ × ℕ :=
  flmScan a b alo blo
    ((List.range' alo (ahi - alo)).flatMap fun i =>
      (List.range' blo (bhi - blo)).map fun j => (i, j))

/-- Total size of all matching blocks of `get_matching_blocks` on a window:
the longest match plus the sums on the two remaining sub-windows. -/
def matchSumF (a b : List Char) : ℕ → ℕ → ℕ → ℕ → ℕ → ℕ
  | 0, _, _, _, _ => 0
  | fuel + 1, alo, ahi, blo, bhi =>
    let m := findLongestMatch a b alo ahi blo bhi
    if m.2.2 = 0 then 0
    else
      m.2.2 +
        (if alo < m.1 ∧ blo < m.2.1 then matchSumF a b fuel alo m.1 blo m.2.1 else 0) +
        (if m.1 + m.2.2 < ahi ∧ m.2.1 + m.2.2 < bhi then
          matchSumF a b fuel (m.1 + m.2.2) ahi (m.2.1 + m.2.2) bhi
        else 0)

/-- `M`, the total number of matched characters over the full strings. -/
def matchSum (a b : List Char) : ℕ := matchSumF a b a.length 0 a.length 0 b.length

/-- `SequenceMatcher.ratio()`: `2.0 * M / T`, and `1.0` when both strings
are empty. -/
def seqRatio (a b : List Char) : ℚ :=
  if a.length + b.length = 0 then 1
  else 2 * (matchSum a b : ℚ) / ((a.length : ℚ) + (b.length : ℚ))

/-- Python `str.lower()` (ASCII case folding). -/
def lowerStr (s : List Char) : List Char := s.map Char.toLower

/-- Python `str.split()`: split on whitespace runs, dropping empty pieces. -/
def pySplit (s : List Char) : List (List Char) :=
  (s.splitOnP fun c => c.isWhitespace).filter fun w => !w.isEmpty

/-- The fixed stop-word set of `text_similarity`. -/
def stopwordSet : Finset (List Char) :=
  (["a", "an", "the", "of", "in", "on", "at", "to", "for", "with", "by", "or",
    "and"].map String.toList).toFinset

/-- `set(name.split()) - stopwords` for an already lowercased name. -/
def tokenSet (s : List Char) : Finset (List Char) :=
  (pySplit s).toFinset \ stopwordSet

/-- Jaccard similarity `len(w1 & w2) / len(w1 | w2)` with the inner guard
`if (words1 | words2) else 0`. -/
def jaccard (w1 w2 : Finset (List Char)) : ℚ :=
  if w1 ∪ w2 = ∅ then 0
  else ((w1 ∩ w2).card : ℚ) / ((w1 ∪ w2).card : ℚ)

/-- Embedding of `text_similarity`: `1.0` on case-insensitive equality;
otherwise the sequence ratio, blended `0.6/0.4` with the Jaccard score only
when both stop-word-free token sets are non-empty. -/
def textSimilarity (name1 name2 : List Char) : ℚ :=
  if lowerStr name1 = lowerStr name2 then 1
  else if tokenSet (lowerStr name1) ≠ ∅ ∧ tokenSet (lowerStr name2) ≠ ∅ then
    (6 / 10 : ℚ) * seqRatio (lowerStr name1) (lowerStr name2) +
      (4 / 10 : ℚ) * jaccard (tokenSet (lowerStr name1)) (tokenSet (lowerStr name2))
  else seqRatio (lowerStr name1) (lowerStr name2)

/-- The formula claimed by the specification, stated verbatim: always
`0.6 · sequence-similarity + 0.4 · Jaccard`, collapsing to `1.0` on exact
case-insensitive equality. -/
def specTextSimilarity (name1 name2 : List Char) : ℚ :=
  if lowerStr name1 = lowerStr name2 then 1
  else
    (6 / 10 : ℚ) * seqRatio (lowerStr name1) (lowerStr name2) +
      (4 / 10 : ℚ) * jaccard (tokenSet (lowerStr name1)) (tokenSet (lowerStr name2))

lemma seqRatio_eval (a b : List Char) (m la lb : ℕ) (hm : matchSum a b = m)
    (ha : a.length = la) (hb : b.length = lb) (h : la + lb ≠ 0) :
    seqRatio a b = 2 * (m : ℚ) / ((la : ℚ) + (lb : ℚ)) := by
  rw [seqRatio, ha, hb, hm, if_neg h]

lemma jaccard_eval (w1 w2 : Finset (List Char)) (ci cu : ℕ)
    (hu : w1 ∪ w2 ≠ ∅) (hci : (w1 ∩ w2).card = ci) (hcu : (w1 ∪ w2).card = cu) :
    jaccard w1 w2 = (ci : ℚ) / (cu : ℚ) := by
  rw [jaccard, if_neg hu, hci, hcu]

/-- **C8 counterexample.**  For the names `of` and `off` the stop-word
removal empties the first token set, so the code returns the bare sequence
ratio `4/5`, while the claimed blended formula gives `12/25`. -/
theorem text_similarity_formula_counterexample :
    textSimilarity "of".toList "off".toList = 4 / 5 ∧
    specTextSimilarity "of".toList "off".toList = 12 / 25 ∧
    textSimilarity "of".toList "off".toList ≠ specTextSimilarity "of".toList "off".toList := by
  have hne : ¬ lowerStr "of".toList = lowerStr "off".toList := by decide
  have ht1 : tokenSet (lowerStr "of".toList) = ∅ := by decide
  have hratio : seqRatio (lowerStr "of".toList) (lowerStr "off".toList) = 4 / 5 := by
    rw [seqRatio_eval (lowerStr "of".toList) (lowerStr "off".toList) 2 2 3 (by decide)
      (by decide) (by decide) (by omega)]
    norm_num
  have hjac : jaccard (tokenSet (lowerStr "of".toList)) (tokenSet (lowerStr "off".toList)) =
      0 := by
    rw [jaccard_eval (tokenSet (lowerStr "of".toList)) (tokenSet (lowerStr "off".toList))
      0 1 (by decide) (by decide) (by decide)]
    norm_num
  have h1 : textSimilarity "of".toList "off".toList = 4 / 5 := by
    rw [textSimilarity, if_neg hne, if_neg (fun h => h.1 ht1), hratio]
  have h2 : specTextSimilarity "of".toList "off".toList = 12 / 25 := by
    rw [specTextSimilarity, if_neg hne, hratio, hjac]
    norm_num
  refine ⟨h1, h2, ?_⟩
  rw [h1, h2]
  norm_num

/-- **C9 counterexample.**  `SequenceMatcher.ratio` is not symmetric:
`text_similarity("tide", "diet") = 3/20` but
`text_similarity("diet", "tide") = 3/10`. -/
theorem text_similarity_not_symmetric :
    textSimilarity "tide".toList "diet".toList = 3 / 20 ∧
    textSimilarity "diet".toList "tide".toList = 3 / 10 ∧
    textSimilarity "tide".toList "diet".toList ≠
      textSimilarity "diet".toList "tide".toList := by
  have hne1 : ¬ lowerStr "tide".toList = lowerStr "diet".toList := by decide
  have hne2 : ¬ lowerStr "diet".toList = lowerStr "tide".toList := by decide
  have hguard1 : tokenSet (lowerStr "tide".toList) ≠ ∅ ∧
      tokenSet (lowerStr "diet".toList) ≠ ∅ := by decide
  have hguard2 : tokenSet (lowerStr "diet".toList) ≠ ∅ ∧
      tokenSet (lowerStr "tide".toList) ≠ ∅ := by decide
  have hj1 : jaccard (tokenSet (lowerStr "tide".toList)) (tokenSet (lowerStr "diet".toList)) =
      0 := by
    rw [jaccard_eval (tokenSet (lowerStr "tide".toList)) (tokenSet (lowerStr "diet".toList))
      0 2 (by decide) (by decide) (by decide)]
    norm_num
  have hj2 : jaccard (tokenSet (lowerStr "diet".toList)) (tokenSet (lowerStr "tide".toList)) =
      0 := by
    rw [jaccard_eval (tokenSet (lowerStr "diet".toList)) (tokenSet (lowerStr "tide".toList))
      0 2 (by decide) (by decide) (by decide)]
    norm_num
  have h1 : textSimilarity "tide".toList "diet".toList = 3 / 20 := by
    rw [textSimilarity, if_neg hne1, if_pos hguard1, hj1,
      seqRatio_eval (lowerStr "tide".toList) (lowerStr "diet".toList) 1 4 4 (by decide)
        (by decide) (by decide) (by omega)]
    norm_num
  have h2 : textSimilarity "diet".toList "tide".toList = 3 / 10 := by
    rw [textSimilarity, if_neg hne2, if_pos hguard2, hj2,
      seqRatio_eval (lowerStr "diet".toList) (lowerStr "tide".toList) 2 4 4 (by decide)
        (by decide) (by decide) (by omega)]
    norm_num
  refine ⟨h1, h2, ?_⟩
  rw [h1, h2]
  norm_num


lemma chMatch_eq_true {a b : List Char} {i j : ℕ} (h : chMatch a b i j = true) :
    i < a.length ∧ j < b.length ∧ a[i]? = b[j]? := by
  rw [chMatch] at h
  rcases ha : a[i]? with _ | x <;> rcases hb : b[j]? with _ | y <;> rw [ha, hb] at h
  · simp at h
  · simp at h
  · simp at h
  · have hxy : x = y := by simpa using h
    exact ⟨(List.getElem?_eq_some.mp ha).1, (List.getElem?_eq_some.mp hb).1,
      by rw [hxy]⟩

lemma lcsuf_zero_left (a b : List Char) (alo blo j : ℕ) :
    lcsuf a b alo blo 0 j = if chMatch a b 0 j then 1 else 0 := by
  cases j <;> rfl

lemma lcsuf_succ_zero (a b : List Char) (alo blo i : ℕ) :
    lcsuf a b alo blo (i + 1) 0 = if chMatch a b (i + 1) 0 then 1 else 0 := rfl

lemma lcsuf_succ_succ (a b : List Char) (alo blo i j : ℕ) :
    lcsuf a b alo blo (i + 1) (j + 1) =
      if chMatch a b (i + 1) (j + 1) then
        1 + (if alo ≤ i ∧ blo ≤ j then lcsuf a b alo blo i j else 0)
      else 0 := rfl

lemma lcsuf_le (a b : List Char) (alo blo : ℕ) :
    ∀ i j, lcsuf a b alo blo i j ≤ i - alo + 1 ∧ lcsuf a b alo blo i j ≤ j - blo + 1 ∧
      ∀ d, d < lcsuf a b alo blo i j → chMatch a b (i - d) (j - d) = true := by
  intro i
  induction i with
  | zero =>
    intro j
    rw [lcsuf_zero_left]
    by_cases h : chMatch a b 0 j = true
    · rw [if_pos h]
      refine ⟨by omega, by omega, ?_⟩
      intro d hd
      have hd0 : d = 0 := by omega
      subst hd0
      simpa using h
    · rw [if_neg h]
      exact ⟨by omega, by omega, fun d hd => absurd hd (by omega)⟩
  | succ i ih =>
    intro j
    rcases j with _ | j'
    · rw [lcsuf_succ_zero]
      by_cases h : chMatch a b (i + 1) 0 = true
      · rw [if_pos h]
        refine ⟨by omega, by omega, ?_⟩
        intro d hd
        have hd0 : d = 0 := by omega
        subst hd0
        simpa using h
      · rw [if_neg h]
        exact ⟨by omega, by omega, fun d hd => absurd hd (by omega)⟩
    · rw [lcsuf_succ_succ]
      by_cases h : chMatch a b (i + 1) (j' + 1) = true
      · rw [if_pos h]
        by_cases hwin : alo ≤ i ∧ blo ≤ j'
        · rw [if_pos hwin]
          obtain ⟨ih1, ih2, ih3⟩ := ih j'
          refine ⟨by omega, by omega, ?_⟩
          intro d hd
          rcases d with _ | d'
          · simpa using h
          · have hd' : d' < lcsuf a b alo blo i j' := by omega
            have hblock := ih3 d' hd'
            have e1 : i + 1 - (d' + 1) = i - d' := by omega
            have e2 : j' + 1 - (d' + 1) = j' - d' := by omega
            rw [e1, e2]
            exact hblock
        · rw [if_neg hwin]
          refine ⟨by omega, by omega, ?_⟩
          intro d hd
          have hd0 : d = 0 := by omega
          subst hd0
          simpa using h
      · rw [if_neg h]
        exact ⟨by omega, by omega, fun d hd => absurd hd (by omega)⟩

/-- Invariant of the best block during the `find_longest_match` scan: the
block lies inside the window and is an actual character-wise match. -/
def FLMInv (a b : List Char) (alo ahi blo bhi : ℕ) (best : ℕ × ℕ × ℕ) : Prop :=
  alo ≤ best.1 ∧ blo ≤ best.2.1 ∧
  (best.2.2 = 0 → best = (alo, blo, 0)) ∧
  (best.2.2 ≠ 0 → best.1 + best.2.2 ≤ ahi ∧ best.2.1 + best.2.2 ≤ bhi ∧
    ∀ d < best.2.2, chMatch a b (best.1 + d) (best.2.1 + d) = true)

lemma flmScan_inv (a b : List Char) (alo ahi blo bhi : ℕ) :
    ∀ (cands : List (ℕ × ℕ)) (best : ℕ × ℕ × ℕ),
      (∀ ij ∈ cands, alo ≤ ij.1 ∧ ij.1 < ahi ∧ blo ≤ ij.2 ∧ ij.2 < bhi) →
      FLMInv a b alo ahi blo bhi best →
      FLMInv a b alo ahi blo bhi
        (cands.foldl
          (fun best ij =>
            let k := lcsuf a b alo blo ij.1 ij.2
            if best.2.2 < k then (ij.1 + 1 - k, ij.2 + 1 - k, k) else best)
          best) := by
  intro cands
  induction cands with
  | nil => intro best _ hinv; exact hinv
  | cons ij rest ihc =>
    intro best hb hinv
    rw [List.foldl_cons]
    apply ihc _ (fun p hp => hb p (List.mem_cons_of_mem ij hp))
    obtain ⟨hbi1, hbi2, hbi3, hbi4⟩ := hinv
    obtain ⟨hij1, hij2, hij3, hij4⟩ := hb ij (List.mem_cons_self ij rest)
    show FLMInv a b alo ahi blo bhi
      (if best.2.2 < lcsuf a b alo blo ij.1 ij.2 then
        (ij.1 + 1 - lcsuf a b alo blo ij.1 ij.2,
          ij.2 + 1 - lcsuf a b alo blo ij.1 ij.2, lcsuf a b alo blo ij.1 ij.2)
      else best)
    by_cases hlt : best.2.2 < lcsuf a b alo blo ij.1 ij.2
    · rw [if_pos hlt]
      obtain ⟨hk1, hk2, hk3⟩ := lcsuf_le a b alo blo ij.1 ij.2
      have hkpos : 1 ≤ lcsuf a b alo blo ij.1 ij.2 := by omega
      unfold FLMInv
      dsimp only
      refine ⟨by omega, by omega, by intro h; omega, ?_⟩
      intro _
      refine ⟨by omega, by omega, ?_⟩
      intro d hd
      have hblock := hk3 (lcsuf a b alo blo ij.1 ij.2 - 1 - d) (by omega)
      have e1 : ij.1 - (lcsuf a b alo blo ij.1 ij.2 - 1 - d) =
          ij.1 + 1 - lcsuf a b alo blo ij.1 ij.2 + d := by omega
      have e2 : ij.2 - (lcsuf a b alo blo ij.1 ij.2 - 1 - d) =
          ij.2 + 1 - lcsuf a b alo blo ij.1 ij.2 + d := by omega
      rw [e1, e2] at hblock
      exact hblock
    · rw [if_neg hlt]
      exact ⟨hbi1, hbi2, hbi3, hbi4⟩

lemma findLongestMatch_spec (a b : List Char) (alo ahi blo bhi : ℕ) :
    FLMInv a b alo ahi blo bhi (findLongestMatch a b alo ahi blo bhi) := by
  rw [findLongestMatch, flmScan]
  apply flmScan_inv
  · intro ij hij
    rw [List.mem_flatMap] at hij
    obtain ⟨i, hi, hij⟩ := hij
    rw [List.mem_map] at hij
    obtain ⟨j, hj, rfl⟩ := hij
    rw [List.mem_range'_1] at hi hj
    exact ⟨by omega, by omega, by omega, by omega⟩
  · exact ⟨le_refl alo, le_refl blo, fun _ => rfl, fun h => absurd rfl h⟩

lemma matchSumF_succ (a b : List Char) (fuel alo ahi blo bhi : ℕ) :
    matchSumF a b (fuel + 1) alo ahi blo bhi =
      (fun m : ℕ × ℕ × ℕ =>
        if m.2.2 = 0 then 0
        else
          m.2.2 +
            (if alo < m.1 ∧ blo < m.2.1 then matchSumF a b fuel alo m.1 blo m.2.1 else 0) +
            (if m.1 + m.2.2 < ahi ∧ m.2.1 + m.2.2 < bhi then
              matchSumF a b fuel (m.1 + m.2.2) ahi (m.2.1 + m.2.2) bhi
            else 0))
      (findLongestMatch a b alo ahi blo bhi) := rfl

lemma matchSumF_le (a b : List Char) :
    ∀ fuel alo ahi blo bhi,
      matchSumF a b fuel alo ahi blo bhi ≤ ahi - alo ∧
      matchSumF a b fuel alo ahi blo bhi ≤ bhi - blo := by
  intro fuel
  induction fuel with
  | zero =>
    intro alo ahi blo bhi
    constructor <;> simp [matchSumF]
  | succ fuel ih =>
    intro alo ahi blo bhi
    obtain ⟨hb1, hb2, hzero, hpos⟩ := findLongestMatch_spec a b alo ahi blo bhi
    rw [matchSumF_succ]
    simp only
    by_cases hk : (findLongestMatch a b alo ahi blo bhi).2.2 = 0
    · rw [if_pos hk]
      exact ⟨Nat.zero_le _, Nat.zero_le _⟩
    · rw [if_neg hk]
      obtain ⟨hIA, hIB, _⟩ := hpos hk
      obtain ⟨ihL1, ihL2⟩ := ih alo (findLongestMatch a b alo ahi blo bhi).1 blo
        (findLongestMatch a b alo ahi blo bhi).2.1
      obtain ⟨ihR1, ihR2⟩ := ih
        ((findLongestMatch a b alo ahi blo bhi).1 + (findLongestMatch a b alo ahi blo bhi).2.2)
        ahi
        ((findLongestMatch a b alo ahi blo bhi).2.1 + (findLongestMatch a b alo ahi blo bhi).2.2)
        bhi
      constructor <;> split_ifs with g1 g2 g2 <;> omega

lemma matchSumF_full (a b : List Char) :
    ∀ fuel alo ahi blo bhi,
      ahi ≤ a.length → bhi ≤ b.length → alo ≤ ahi → blo ≤ bhi →
      matchSumF a b fuel alo ahi blo bhi = ahi - alo →
      matchSumF a b fuel alo ahi blo bhi = bhi - blo →
      ∀ t, t < ahi - alo → chMatch a b (alo + t) (blo + t) = true := by
  intro fuel
  induction fuel with
  | zero =>
    intro alo ahi blo bhi _ _ _ _ hA _ t ht
    simp only [matchSumF] at hA
    omega
  | succ fuel ih =>
    intro alo ahi blo bhi hal hbl hle1 hle2 hA hB t ht
    obtain ⟨hb1, hb2, hzero, hpos⟩ := findLongestMatch_spec a b alo ahi blo bhi
    rw [matchSumF_succ] at hA hB
    simp only at hA hB
    by_cases hk : (findLongestMatch a b alo ahi blo bhi).2.2 = 0
    · rw [if_pos hk] at hA
      omega
    · rw [if_neg hk] at hA hB
      obtain ⟨hIA, hIB, hblock⟩ := hpos hk
      set bi := (findLongestMatch a b alo ahi blo bhi).1 with hbi
      set bj := (findLongestMatch a b alo ahi blo bhi).2.1 with hbj
      set k := (findLongestMatch a b alo ahi blo bhi).2.2 with hbk
      set L := (if alo < bi ∧ blo < bj then matchSumF a b fuel alo bi blo bj else 0) with hL
      set R := (if bi + k < ahi ∧ bj + k < bhi then
        matchSumF a b fuel (bi + k) ahi (bj + k) bhi else 0) with hR
      have hLle1 : L ≤ bi - alo := by
        rw [hL]
        split_ifs with g
        · exact (matchSumF_le a b fuel alo bi blo bj).1
        · exact Nat.zero_le _
      have hLle2 : L ≤ bj - blo := by
        rw [hL]
        split_ifs with g
        · exact (matchSumF_le a b fuel alo bi blo bj).2
        · exact Nat.zero_le _
      have hRle1 : R ≤ ahi - (bi + k) := by
        rw [hR]
        split_ifs with g
        · exact (matchSumF_le a b fuel (bi + k) ahi (bj + k) bhi).1
        · exact Nat.zero_le _
      have hRle2 : R ≤ bhi - (bj + k) := by
        rw [hR]
        split_ifs with g
        · exact (matchSumF_le a b fuel (bi + k) ahi (bj + k) bhi).2
        · exact Nat.zero_le _
      have hLeq1 : L = bi - alo := by omega
      have hLeq2 : L = bj - blo := by omega
      have hReq1 : R = ahi - (bi + k) := by omega
      have hReq2 : R = bhi - (bj + k) := by omega
      by_cases hcase1 : t < bi - alo
      · have hg : alo < bi ∧ blo < bj := by omega
        have hL' : L = matchSumF a b fuel alo bi blo bj := by rw [hL, if_pos hg]
        have hs1 : matchSumF a b fuel alo bi blo bj = bi - alo := by
          rw [← hL']
          exact hLeq1
        have hs2 : matchSumF a b fuel alo bi blo bj = bj - blo := by
          rw [← hL']
          exact hLeq2
        exact ih alo bi blo bj (by omega) (by omega) (by omega) (by omega) hs1 hs2 t hcase1
      · by_cases hcase2 : t < bi - alo + k
        · have hd : t - (bi - alo) < k := by omega
          have hbl2 := hblock (t - (bi - alo)) hd
          have e1 : bi + (t - (bi - alo)) = alo + t := by omega
          have e2 : bj + (t - (bi - alo)) = blo + t := by omega
          rw [e1, e2] at hbl2
          exact hbl2
        · have hg : bi + k < ahi ∧ bj + k < bhi := by omega
          have hR' : R = matchSumF a b fuel (bi + k) ahi (bj + k) bhi := by
            rw [hR, if_pos hg]
          have hs1 : matchSumF a b fuel (bi + k) ahi (bj + k) bhi = ahi - (bi + k) := by
            rw [← hR']
            exact hReq1
          have hs2 : matchSumF a b fuel (bi + k) ahi (bj + k) bhi = bhi - (bj + k) := by
            rw [← hR']
            exact hReq2
          have ht' : t - (bi - alo) - k < ahi - (bi + k) := by omega
          have hres := ih (bi + k) ahi (bj + k) bhi (by omega) (by omega) (by omega)
            (by omega) hs1 hs2 (t - (bi - alo) - k) ht'
          have e1 : bi + k + (t - (bi - alo) - k) = alo + t := by omega
          have e2 : bj + k + (t - (bi - alo) - k) = blo + t := by omega
          rw [e1, e2] at hres
          exact hres

lemma matchSum_le (a b : List Char) :
    matchSum a b ≤ a.length ∧ matchSum a b ≤ b.length := by
  have h := matchSumF_le a b a.length 0 a.length 0 b.length
  simpa [matchSum] using h

lemma matchSum_eq_of_full {a b : List Char} (hlen : a.length = b.length)
    (hfull : matchSum a b = a.length) : a = b := by
  have hA : matchSumF a b a.length 0 a.length 0 b.length = a.length - 0 := by
    simpa [matchSum] using hfull
  have hB : matchSumF a b a.length 0 a.length 0 b.length = b.length - 0 := by
    rw [hA]
    omega
  have h := matchSumF_full a b a.length 0 a.length 0 b.length (le_refl _) (le_refl _)
    (Nat.zero_le _) (Nat.zero_le _) hA hB
  apply List.ext_getElem hlen
  intro n h1 h2
  have hc := h n (by omega)
  obtain ⟨_, _, heq⟩ := chMatch_eq_true (by simpa using hc)
  rw [List.getElem?_eq_getElem h1, List.getElem?_eq_getElem h2] at heq
  exact Option.some_inj.mp heq

lemma seqRatio_lt_one {a b : List Char} (h : a ≠ b) : seqRatio a b < 1 := by
  obtain ⟨hle1, hle2⟩ := matchSum_le a b
  by_cases h0 : a.length + b.length = 0
  · exfalso
    apply h
    have ha : a = [] := List.eq_nil_of_length_eq_zero (by omega)
    have hb : b = [] := List.eq_nil_of_length_eq_zero (by omega)
    rw [ha, hb]
  · rw [seqRatio, if_neg h0]
    have hM : 2 * matchSum a b < a.length + b.length := by
      by_cases hlen : a.length = b.length
      · have hne : matchSum a b ≠ a.length := fun heq => h (matchSum_eq_of_full hlen heq)
        omega
      · omega
    have hden : (0 : ℚ) < (a.length : ℚ) + (b.length : ℚ) := by
      have : 0 < a.length + b.length := by omega
      exact_mod_cast this
    rw [div_lt_one hden]
    exact_mod_cast hM

lemma jaccard_le_one (w1 w2 : Finset (List Char)) : jaccard w1 w2 ≤ 1 := by
  rw [jaccard]
  split_ifs with h
  · norm_num
  · have hsub : (w1 ∩ w2).card ≤ (w1 ∪ w2).card :=
      Finset.card_le_card Finset.inter_subset_union
    have hpos : 0 < (w1 ∪ w2).card :=
      Finset.card_pos.mpr (Finset.nonempty_iff_ne_empty.mpr h)
    rw [div_le_one (by exact_mod_cast hpos)]
    exact_mod_cast hsub

/-- **C9 (amended).**  The score is `1.0` exactly when the case-folded
names are identical; symmetry, refuted by `text_similarity_not_symmetric`,
is dropped. -/
theorem text_similarity_one_iff (name1 name2 : List Char) :
    textSimilarity name1 name2 = 1 ↔ lowerStr name1 = lowerStr name2 := by
  constructor
  · intro h
    by_contra hne
    rw [textSimilarity, if_neg hne] at h
    have hr : seqRatio (lowerStr name1) (lowerStr name2) < 1 := seqRatio_lt_one hne
    by_cases hg : tokenSet (lowerStr name1) ≠ ∅ ∧ tokenSet (lowerStr name2) ≠ ∅
    · rw [if_pos hg] at h
      have hj := jaccard_le_one (tokenSet (lowerStr name1)) (tokenSet (lowerStr name2))
      have : (6 / 10 : ℚ) * seqRatio (lowerStr name1) (lowerStr name2) +
          (4 / 10 : ℚ) * jaccard (tokenSet (lowerStr name1)) (tokenSet (lowerStr name2)) <
          1 := by
        nlinarith
      exact absurd h (ne_of_lt this)
    · rw [if_neg hg] at h
      exact absurd h (ne_of_lt hr)
  · intro h
    rw [textSimilarity, if_pos h]

/-- Instantiation of `text_similarity_one_iff`: names equal up to case score
exactly `1.0`. -/
theorem text_similarity_one_iff_witness :
    textSimilarity "Abc".toList "abc".toList = 1 :=
  (text_similarity_one_iff "Abc".toList "abc".toList).mpr (by decide)

/-- Text-similarity pass of `find_relation_alignments`: every cross pair is
scored and kept exactly when the score reaches the threshold (default 0.3). -/
def textAlignments (rels1 rels2 : List (ℤ × List Char)) (thr : ℚ) : List (ℤ × ℤ × ℚ) :=
  rels1.flatMap fun r1 =>
    rels2.filterMap fun r2 =>
      if thr ≤ textSimilarity r1.2 r2.2 then some (r1.1, r2.1, textSimilarity r1.2 r2.2)
      else none

/-- **C8 (amended).**  Whenever both stop-word-free token sets are
non-empty the code's score is exactly the claimed blend
`0.6 · sequence-similarity + 0.4 · Jaccard` (collapsing to `1.0` on
case-insensitive equality) — otherwise the code returns the bare sequence
similarity, see `text_similarity_formula_counterexample` — and the
text-similarity candidate list contains exactly the scored pairs whose
score reaches the threshold: everything below it is dropped. -/
theorem text_similarity_spec :
    (∀ name1 name2 : List Char,
      tokenSet (lowerStr name1) ≠ ∅ → tokenSet (lowerStr name2) ≠ ∅ →
      textSimilarity name1 name2 = specTextSimilarity name1 name2) ∧
    (∀ (rels1 rels2 : List (ℤ × List Char)) (thr : ℚ) (e : ℤ × ℤ × ℚ),
      e ∈ textAlignments rels1 rels2 thr ↔
        ∃ r1 ∈ rels1, ∃ r2 ∈ rels2,
          e = (r1.1, r2.1, textSimilarity r1.2 r2.2) ∧ thr ≤ textSimilarity r1.2 r2.2) := by
  constructor
  · intro name1 name2 h1 h2
    rw [textSimilarity, specTextSimilarity]
    by_cases heq : lowerStr name1 = lowerStr name2
    · rw [if_pos heq, if_pos heq]
    · rw [if_neg heq, if_neg heq, if_pos ⟨h1, h2⟩]
  · intro rels1 rels2 thr e
    constructor
    · intro he
      rw [textAlignments, List.mem_flatMap] at he
      obtain ⟨r1, hr1, he⟩ := he
      rw [List.mem_filterMap] at he
      obtain ⟨r2, hr2, he⟩ := he
      by_cases hth : thr ≤ textSimilarity r1.2 r2.2
      · rw [if_pos hth] at he
        exact ⟨r1, hr1, r2, hr2, (Option.some_inj.mp he).symm, hth⟩
      · rw [if_neg hth] at he
        exact absurd he (by simp)
    · rintro ⟨r1, hr1, r2, hr2, rfl, hth⟩
      rw [textAlignments, List.mem_flatMap]
      refine ⟨r1, hr1, ?_⟩
      rw [List.mem_filterMap]
      exact ⟨r2, hr2, by rw [if_pos hth]⟩

/-- Instantiation of `text_similarity_spec`: on `tide`/`diet` (both token
sets survive stop-word removal) the code score equals the claimed blend. -/
theorem text_similarity_spec_witness :
    textSimilarity "tide".toList "diet".toList =
      specTextSimilarity "tide".toList "diet".toList :=
  text_similarity_spec.1 "tide".toList "diet".toList (by decide) (by decide)

end HyDRA
